import Mathlib

set_option maxRecDepth 8000

/-!
Verification development for the core of `ecs.hpp` (entity-component-system
registry).  The definitions below are a shallow embedding of the C++ source:

* the entity-id codec (`entity_id_index` / `entity_id_version` /
  `entity_id_join`) over 32-bit ids, with wrap-around modelled by explicit
  `% 2^32`;
* the `sparse_set` and `sparse_map` containers (dense array + sparse index
  array + logical size), with the indexer passed explicitly;
* typed component storage (one sparse map keyed by the index part of the
  entity id) and the registry (`create_entity`, `destroy_entity`,
  `assign_component`, `remove_component`, `remove_all_components`,
  `find_component`, `get_component`, `for_joined_components`).

Machine integers are modelled as `Nat` with explicit truncation where the
C++ wraps.  Component values and component-type family ids are modelled as
`Nat` (the C++ is generic in the component type; the family id is the small
integer assigned by `type_family`).  A failing operation (C++ exception)
returns an explicit error together with the state the object is left in.
Growth failure of a container (`std::length_error` from
`new_capacity_for_`, or the allocator refusing a growth request) is
modelled by the `maxSize` bound carried by each container, mirroring
`sparse_set::max_size()`.
-/

/-- Error kinds surfaced by the modelled operations: `capacityExhausted`
models `std::length_error` from `sparse_set::new_capacity_for_` (and an
allocator refusing growth), `indexSpaceExhausted` the
`"entity index overlow"` `logic_error` of `registry::create_entity`, and
`componentNotFound` the `"component not found"` / `"value not found"`
`logic_error`s of `get_component` / `get_index`. -/
inductive Err where
  | capacityExhausted
  | indexSpaceExhausted
  | componentNotFound
deriving DecidableEq, Repr

deriving instance DecidableEq for Except

/-- `entity_id_index_bits` from the source: the low 22 bits of an id are
the index. -/
def entity_id_index_bits : Nat := 22

/-- `entity_id_index_mask = (1 << 22) - 1`. -/
def entity_id_index_mask : Nat := (1 <<< entity_id_index_bits) - 1

/-- `entity_id_version_bits`: the high 10 bits are the generation. -/
def entity_id_version_bits : Nat := 10

/-- `entity_id_version_mask = (1 << 10) - 1`. -/
def entity_id_version_mask : Nat := (1 <<< entity_id_version_bits) - 1

/-- One past the largest `std::uint32_t` value; C++ arithmetic on
`entity_id` wraps modulo this. -/
def uint32_size : Nat := 1 <<< 32

/-- `entity_id_index(id) = id & entity_id_index_mask`. -/
def entity_id_index (id : Nat) : Nat := id &&& entity_id_index_mask

/-- `entity_id_version(id) = (id >> 22) & entity_id_version_mask`. -/
def entity_id_version (id : Nat) : Nat :=
  (id >>> entity_id_index_bits) &&& entity_id_version_mask

/-- `entity_id_join(index, version) = index | (version << 22)`, computed in
`std::uint32_t`, so the shifted generation is truncated modulo `2^32`. -/
def entity_id_join (index version : Nat) : Nat :=
  index ||| ((version <<< entity_id_index_bits) % uint32_size)

/-- The indexer used for entity-id keyed containers
(`detail::entity_id_indexer`): keys are hashed to their index part. -/
def ixE : Nat → Nat := entity_id_index

/-- The indexer used for plain unsigned keys
(`detail::sparse_unsigned_indexer`): the identity cast. -/
def ixId : Nat → Nat := fun k => k

/-- State of `detail::sparse_set`.  `dense` and `sparse` model the two
`std::vector`s (their physical length equals `capacity`; slots at or past
`size` hold unspecified values, value-initialised to `0` on growth exactly
as the C++ vectors are).  `maxSize` models `max_size()` of the underlying
vectors, i.e. the bound past which growth fails. -/
structure SparseSet where
  dense : List Nat
  sparse : List Nat
  size : Nat
  capacity : Nat
  maxSize : Nat
deriving DecidableEq, Repr

/-- A freshly constructed sparse set: empty vectors, zero size and
capacity. -/
def SparseSet.mk0 (m : Nat) : SparseSet :=
  { dense := [], sparse := [], size := 0, capacity := 0, maxSize := m }

/-- The live values `dense[0..size)` of a sparse set. -/
def SparseSet.toL (s : SparseSet) : List Nat := s.dense.take s.size

/-- `sparse_set::has`: `vi < capacity && sparse[vi] < size &&
dense[sparse[vi]] == v`. -/
def SparseSet.has (ix : Nat → Nat) (s : SparseSet) (v : Nat) : Bool :=
  let vi := ix v
  decide (vi < s.capacity ∧ s.sparse.getD vi 0 < s.size ∧
    s.dense.getD (s.sparse.getD vi 0) 0 = v)

/-- `sparse_set::new_capacity_for_`: fail past `max_size`, jump straight to
`max_size` once capacity reaches half of it, otherwise double (at least to
`nsize`). -/
def SparseSet.new_capacity_for_ (s : SparseSet) (nsize : Nat) : Except Err Nat :=
  if nsize > s.maxSize then .error .capacityExhausted
  else if s.maxSize / 2 ≤ s.capacity then .ok s.maxSize
  else .ok (max (s.capacity * 2) nsize)

/-- `sparse_set::reserve`: grow both vectors to `ncapacity`, copying the
old contents into the front and value-initialising the rest. -/
def SparseSet.reserve (s : SparseSet) (ncap : Nat) : SparseSet :=
  if s.capacity < ncap then
    { s with
      dense := s.dense ++ List.replicate (ncap - s.dense.length) 0
      sparse := s.sparse ++ List.replicate (ncap - s.sparse.length) 0
      capacity := ncap }
  else s

/-- `sparse_set::insert`: refuse duplicates, grow if the slot of `v` is
past the capacity, then place `v` at `dense[size]`, point `sparse[ix v]` at
it and bump `size`.  A growth failure (`new_capacity_for_` throwing) leaves
the set untouched. -/
def SparseSet.insert (ix : Nat → Nat) (s : SparseSet) (v : Nat) :
    SparseSet × Except Err Bool :=
  if s.has ix v then (s, .ok false)
  else
    let vi := ix v
    match (if s.capacity ≤ vi then s.new_capacity_for_ (vi + 1) else .ok s.capacity) with
    | .error e => (s, .error e)
    | .ok ncap =>
      let s1 := s.reserve ncap
      ({ s1 with
          dense := s1.dense.set s1.size v
          sparse := s1.sparse.set vi s1.size
          size := s1.size + 1 }, .ok true)

/-- `sparse_set::unordered_erase`: overwrite the slot of `v` with the last
live value, repoint that value's sparse entry, and shrink `size`. -/
def SparseSet.unordered_erase (ix : Nat → Nat) (s : SparseSet) (v : Nat) :
    SparseSet × Bool :=
  if s.has ix v then
    let vi := ix v
    let index := s.sparse.getD vi 0
    let last := s.dense.getD (s.size - 1) 0
    ({ s with
        dense := s.dense.set index last
        sparse := s.sparse.set (ix last) index
        size := s.size - 1 }, true)
  else (s, false)

/-- `sparse_set::clear`: reset `size` without touching the arrays. -/
def SparseSet.clear (s : SparseSet) : SparseSet := { s with size := 0 }

/-- `sparse_set::find_index`: the dense position of `v` when present. -/
def SparseSet.find_index (ix : Nat → Nat) (s : SparseSet) (v : Nat) : Option Nat :=
  if s.has ix v then some (s.sparse.getD (ix v) 0) else none

/-- `sparse_set::get_index`: as `find_index` but failing (`logic_error`)
on an absent value. -/
def SparseSet.get_index (ix : Nat → Nat) (s : SparseSet) (v : Nat) : Except Err Nat :=
  match s.find_index ix v with
  | some i => .ok i
  | none => .error .componentNotFound

/-- State of `detail::sparse_map`: a sparse set of keys plus the parallel
`values` vector (whose logical and physical lengths agree, since it only
ever grows by `push_back` and shrinks by `pop_back`). -/
structure SparseMap (V : Type) where
  keys : SparseSet
  values : List V
deriving DecidableEq, Repr

/-- A freshly constructed sparse map. -/
def SparseMap.mk0 (V : Type) (m : Nat) : SparseMap V :=
  { keys := SparseSet.mk0 m, values := [] }

/-- `sparse_map::has`. -/
def SparseMap.has (ix : Nat → Nat) (m : SparseMap V) (k : Nat) : Bool :=
  m.keys.has ix k

/-- `sparse_map::insert` / `sparse_map::emplace`: refuse present keys;
push the value, then record the key; if recording the key throws, pop the
value back off and propagate the error (the `try`/`catch` in the source),
so a failing call leaves the map in its pre-call state. -/
def SparseMap.emplace (ix : Nat → Nat) (m : SparseMap V) (k : Nat) (v : V) :
    SparseMap V × Except Err Bool :=
  if m.keys.has ix k then (m, .ok false)
  else
    match m.keys.insert ix k with
    | (_, .error e) => (m, .error e)
    | (ks, .ok b) => ({ keys := ks, values := m.values ++ [v] }, .ok b)

/-- `sparse_map::unordered_erase`: swap-pop the value at the key's dense
position, then erase the key from the key set. -/
def SparseMap.unordered_erase [Inhabited V] (ix : Nat → Nat) (m : SparseMap V)
    (k : Nat) : SparseMap V × Bool :=
  if m.keys.has ix k then
    let index := m.keys.sparse.getD (ix k) 0
    let lastv := m.values.getD (m.values.length - 1) default
    let values1 := (m.values.set index lastv).dropLast
    ({ keys := (m.keys.unordered_erase ix k).1, values := values1 }, true)
  else (m, false)

/-- `sparse_map::find_value`: a pointer to the value at the key's dense
position, or null. -/
def SparseMap.find_value (ix : Nat → Nat) (m : SparseMap V) (k : Nat) : Option V :=
  match m.keys.find_index ix k with
  | some i => m.values.get? i
  | none => none

/-- `sparse_map::get_value`: as `find_value` but failing on an absent key
(`get_index` throws). -/
def SparseMap.get_value (ix : Nat → Nat) (m : SparseMap V) (k : Nat) : Except Err V :=
  match m.find_value ix k with
  | some v => .ok v
  | none => .error .componentNotFound

/-- `component_storage::assign`: emplace the component; when the entry
already exists (`emplace` returned `false`) overwrite it with a freshly
constructed value through `get_value`. -/
def SparseMap.assign (ix : Nat → Nat) (m : SparseMap V) (k : Nat) (v : V) :
    SparseMap V × Except Err Unit :=
  match m.emplace ix k v with
  | (m1, .error e) => (m1, .error e)
  | (m1, .ok true) => (m1, .ok ())
  | (m1, .ok false) =>
    match m1.keys.find_index ix k with
    | some i => ({ m1 with values := m1.values.set i v }, .ok ())
    | none => (m1, .error .componentNotFound)

/-- A typed component storage: one sparse map keyed by entity id through
`entity_id_indexer`, holding component values (modelled as `Nat`). -/
abbrev Storage : Type := SparseMap Nat

instance : DecidableEq Storage := inferInstanceAs (DecidableEq (SparseMap Nat))
instance : Inhabited Storage := ⟨SparseMap.mk0 Nat 0⟩

/-- State of `ecs_hpp::registry`: `last_entity_id_`, the stack
`free_entity_ids_` (head = top, i.e. the most recently freed id), the live
entity-id set `entity_ids_` (keyed by index part), and the storage table
`storages_` (a sparse map from family id to storage).  `budget` is the
`max_size` given to containers created later (storages made by
`get_or_create_storage_`). -/
structure Registry where
  last_entity_id : Nat
  free_entity_ids : List Nat
  entity_ids : SparseSet
  storages : SparseMap Storage
  budget : Nat
deriving DecidableEq

/-- A default-constructed registry, with allocation budget `M` for its
containers. -/
def Registry.init (M : Nat) : Registry :=
  { last_entity_id := 0
    free_entity_ids := []
    entity_ids := SparseSet.mk0 M
    storages := SparseMap.mk0 Storage M
    budget := M }

/-- `registry::is_entity_alive_impl_`: membership of the full id in
`entity_ids_`. -/
def Registry.is_entity_alive_impl_ (r : Registry) (id : Nat) : Bool :=
  r.entity_ids.has ixE id

/-- `registry::create_entity`: reuse the most recently freed id with a
bumped generation if the free list is non-empty; otherwise mint
`++last_entity_id_` while the index space lasts; otherwise throw.  In the
fresh branch the increment of `last_entity_id_` happens before the
(fallible) insertion, exactly as in the source. -/
def Registry.createEntity (r : Registry) : Registry × Except Err Nat :=
  match r.free_entity_ids with
  | f :: rest =>
    let new_id := entity_id_join (entity_id_index f) (entity_id_version f + 1)
    match r.entity_ids.insert ixE new_id with
    | (s, .ok _) =>
      ({ r with entity_ids := s, free_entity_ids := rest }, .ok new_id)
    | (s, .error e) => ({ r with entity_ids := s }, .error e)
  | [] =>
    if r.last_entity_id < entity_id_index_mask then
      let nid := r.last_entity_id + 1
      match r.entity_ids.insert ixE nid with
      | (s, .ok _) =>
        ({ r with last_entity_id := nid, entity_ids := s }, .ok nid)
      | (s, .error e) =>
        ({ r with last_entity_id := nid, entity_ids := s }, .error e)
    else (r, .error .indexSpaceExhausted)

/-- One step of the loop in `registry::remove_all_components_impl_`:
`storages_.get_value(id)->remove(ent.id())`, counting successes.  The key
set of the storage table is fixed during the loop, so it is passed
separately and only the `values` vector is threaded. -/
def remAllStep (ks : SparseSet) (id : Nat) (acc : List Storage × Nat)
    (fam : Nat) : List Storage × Nat :=
  match ks.find_index ixId fam with
  | none => acc
  | some i =>
    match acc.1.get? i with
    | none => acc
    | some st =>
      let (st2, b) := st.unordered_erase ixE id
      (acc.1.set i st2, if b then acc.2 + 1 else acc.2)

/-- `registry::remove_all_components_impl_`: return 0 for a handle that is
not alive; otherwise walk the storage table and erase the entity's entry
from every storage, counting removals. -/
def Registry.remove_all_components_impl_ (r : Registry) (id : Nat) :
    Registry × Nat :=
  if r.is_entity_alive_impl_ id then
    let p := r.storages.keys.toL.foldl (remAllStep r.storages.keys id)
      (r.storages.values, 0)
    ({ r with storages := { keys := r.storages.keys, values := p.1 } }, p.2)
  else (r, 0)

/-- The second half of `registry::destroy_entity`: erase the id from the
live set; if it was present push it onto the free list and report
`true`. -/
def Registry.eraseLive (r1 : Registry) (id : Nat) : Registry × Bool :=
  match r1.entity_ids.unordered_erase ixE id with
  | (s, true) =>
    ({ r1 with entity_ids := s, free_entity_ids := id :: r1.free_entity_ids }, true)
  | (s, false) => ({ r1 with entity_ids := s }, false)

/-- `registry::destroy_entity`: first remove all components, then erase the
id from the live set as above. -/
def Registry.destroyEntity (r : Registry) (id : Nat) : Registry × Bool :=
  Registry.eraseLive (r.remove_all_components_impl_ id).1 id

/-- `registry::find_storage_`: the storage registered for a family id, if
any. -/
def Registry.find_storage_ (r : Registry) (fam : Nat) : Option Storage :=
  r.storages.find_value ixId fam

/-- `registry::assign_component`: refuse handles that are not alive;
otherwise get-or-create the storage for the family and assign into it.
Storage creation happens through `storages_.emplace`; a failure inside the
inner `assign` still leaves the (possibly just created) storage in the
table, as in the source. -/
def Registry.assign_component (r : Registry) (fam id v : Nat) :
    Registry × Except Err Bool :=
  if r.is_entity_alive_impl_ id then
    match r.storages.keys.find_index ixId fam with
    | some i =>
      match r.storages.values.get? i with
      | some st =>
        let p := st.assign ixE id v
        ({ r with storages :=
            { keys := r.storages.keys, values := r.storages.values.set i p.1 } },
          p.2.map (fun _ => true))
      | none => (r, .error .componentNotFound)
    | none =>
      match r.storages.emplace ixId fam (SparseMap.mk0 Nat r.budget) with
      | (m, .error e) => ({ r with storages := m }, .error e)
      | (m, .ok _) =>
        match m.keys.find_index ixId fam with
        | some i =>
          match m.values.get? i with
          | some st =>
            let p := st.assign ixE id v
            ({ r with storages := { keys := m.keys, values := m.values.set i p.1 } },
              p.2.map (fun _ => true))
          | none => ({ r with storages := m }, .error .componentNotFound)
        | none => ({ r with storages := m }, .error .componentNotFound)
  else (r, .ok false)

/-- `registry::remove_component`: refuse handles that are not alive; no
storage means `false`; otherwise erase from the storage. -/
def Registry.remove_component (r : Registry) (fam id : Nat) : Registry × Bool :=
  if r.is_entity_alive_impl_ id then
    match r.storages.keys.find_index ixId fam with
    | some i =>
      match r.storages.values.get? i with
      | some st =>
        let p := st.unordered_erase ixE id
        ({ r with storages :=
            { keys := r.storages.keys, values := r.storages.values.set i p.1 } },
          p.2)
      | none => (r, false)
    | none => (r, false)
  else (r, false)

/-- `registry::exists_component`: `false` when not alive or no storage;
otherwise storage membership. -/
def Registry.exists_component (r : Registry) (fam id : Nat) : Bool :=
  r.is_entity_alive_impl_ id &&
    (match r.find_storage_ fam with
     | some st => st.has ixE id
     | none => false)

/-- `registry::find_component_impl_`: no liveness guard — straight to the
storage's `find`. -/
def Registry.find_component (r : Registry) (fam id : Nat) : Option Nat :=
  match r.find_storage_ fam with
  | some st => st.find_value ixE id
  | none => none

/-- `registry::get_component`: as `find_component` but throwing
`"component not found"` on absence. -/
def Registry.get_component (r : Registry) (fam id : Nat) : Except Err Nat :=
  match r.find_component fam id with
  | some v => .ok v
  | none => .error .componentNotFound

/-- The probe phase of `for_joined_components_impl_`: each of the tail
storages must find the entity (a null storage fails the probe). -/
def probeTails (tails : List (Option Storage)) (id : Nat) : Bool :=
  tails.all fun t =>
    match t with
    | some st => (st.find_value ixE id).isSome
    | none => false

/-- `registry::for_joined_components` restricted to the visited entity
ids: resolve the tail storages; if any is missing, or the driving storage
is missing, visit nothing; otherwise walk the driving storage's dense
key sequence and keep the entities every tail storage finds. -/
def Registry.for_joined_components (r : Registry) (f0 : Nat) (fs : List Nat) :
    List Nat :=
  let tails := fs.map r.find_storage_
  if tails.any Option.isNone then []
  else
    match r.find_storage_ f0 with
    | none => []
    | some s0 =>
      s0.keys.toL.foldr (fun id acc => if probeTails tails id then id :: acc else acc) []

/-- Mutating registry API calls, used to describe the reachable states. -/
inductive ROp where
  | create
  | destroy (id : Nat)
  | assign (fam id v : Nat)
  | removeComp (fam id : Nat)
  | removeAll (id : Nat)
deriving Repr

/-- Apply one API call, keeping the state the call leaves behind whether or
not it reports success. -/
def Registry.applyOp (r : Registry) (op : ROp) : Registry :=
  match op with
  | .create => (r.createEntity).1
  | .destroy id => (r.destroyEntity id).1
  | .assign fam id v => (r.assign_component fam id v).1
  | .removeComp fam id => (r.remove_component fam id).1
  | .removeAll id => (r.remove_all_components_impl_ id).1

/-- Run a sequence of API calls from a default-constructed registry. -/
def Registry.run (M : Nat) (ops : List ROp) : Registry :=
  ops.foldl Registry.applyOp (Registry.init M)

/-- A registry state is reachable when some sequence of API calls from a
default-constructed registry produces it. -/
def Reachable (r : Registry) : Prop := ∃ M ops, r = Registry.run M ops

/-- Iterated `create_entity` (keeping the state of failing calls), for the
entity-freshness claim. -/
def Registry.createN (r : Registry) : Nat → Registry
  | 0 => r
  | n + 1 => ((r.createEntity).1).createN n

/-- Operations of the sparse-set property claim. -/
inductive SOp where
  | ins (v : Nat)
  | ers (v : Nat)
deriving Repr

/-- Apply one sparse-set operation with the plain unsigned indexer; a
failing insert leaves the set unchanged. -/
def SparseSet.applyOp (s : SparseSet) (op : SOp) : SparseSet :=
  match op with
  | .ins v => (s.insert ixId v).1
  | .ers v => (s.unordered_erase ixId v).1

/-- Run a sequence of sparse-set operations from a fresh set with
`max_size` `M`. -/
def SparseSet.run (M : Nat) (ops : List SOp) : SparseSet :=
  ops.foldl SparseSet.applyOp (SparseSet.mk0 M)

/-- Operations of the sparse-map parity claim: `insert`, the
emplace-or-overwrite `assign` of a component storage, and
`unordered_erase`. -/
inductive MOp where
  | ins (k v : Nat)
  | asn (k v : Nat)
  | ers (k : Nat)
deriving Repr

/-- Modelled from the spec: an association-list account of a sparse map,
`find_value(k)` must point to "the value paired with `k` at its most recent
successful insert or overwrite".  The list records the most recent pairing
first; erasing drops all pairings of the key. -/
def specLookup (l : List (Nat × Nat)) (k : Nat) : Option Nat :=
  match l with
  | [] => none
  | (k', v) :: rest => if k' = k then some v else specLookup rest k

/-- Apply one sparse-map operation to the implementation and, alongside it,
to the spec-level association list; the spec side records a pairing exactly
when the implementation reports the insert or overwrite succeeded. -/
def mapModelStep (s : SparseMap Nat × List (Nat × Nat)) (op : MOp) :
    SparseMap Nat × List (Nat × Nat) :=
  match op with
  | .ins k v =>
    match s.1.emplace ixId k v with
    | (m, .ok true) => (m, (k, v) :: s.2)
    | (m, .ok false) => (m, s.2)
    | (m, .error _) => (m, s.2)
  | .asn k v =>
    match s.1.assign ixId k v with
    | (m, .ok _) => (m, (k, v) :: s.2)
    | (m, .error _) => (m, s.2)
  | .ers k =>
    let p := s.1.unordered_erase ixId k
    (p.1, if p.2 then s.2.filter (fun q => decide (q.1 ≠ k)) else s.2)

/-- Run a sequence of sparse-map operations from a fresh map with
`max_size` `M`, paired with the spec-level association list. -/
def mapRun (M : Nat) (ops : List MOp) : SparseMap Nat × List (Nat × Nat) :=
  ops.foldl mapModelStep (SparseMap.mk0 Nat M, [])

/-- The number of entries a storage holds at a given entity index. -/
def Registry.countAt (r : Registry) (fam idx : Nat) : Nat :=
  match r.find_storage_ fam with
  | some st => st.keys.toL.countP (fun k => decide (entity_id_index k = idx))
  | none => 0

/-- The live full ids of a registry, in dense order. -/
def Registry.liveIds (r : Registry) : List Nat := r.entity_ids.toL

/-- Well-formedness of a sparse set under an indexer: vectors have length
`capacity`, the live region fits, each live value's slot is inside the
arrays and its sparse entry points back at its dense position (invariant S1
of the data model). -/
structure SSWF (ix : Nat → Nat) (s : SparseSet) : Prop where
  dlen : s.dense.length = s.capacity
  slen : s.sparse.length = s.capacity
  hsize : s.size ≤ s.capacity
  hix : ∀ i, i < s.size → ix (s.dense.getD i 0) < s.capacity
  hlink : ∀ i, i < s.size → s.sparse.getD (ix (s.dense.getD i 0)) 0 = i

/-- Well-formedness of a sparse map: its key set is well formed and the
parallel `values` vector has exactly one slot per live key. -/
def MapWF (ix : Nat → Nat) (m : SparseMap V) : Prop :=
  SSWF ix m.keys ∧ m.values.length = m.keys.size

/-- The registry invariant: a well-formed live set whose indices are
bounded by `last_entity_id`, a free list with pairwise distinct indices
disjoint from the live indices and bounded by `last_entity_id`,
`last_entity_id` within the 22-bit index space, a well-formed storage
table, and every storage well formed with its keys drawn from the live
full ids (invariant C1 of the data model). -/
structure RInv (r : Registry) : Prop where
  wfLive : SSWF ixE r.entity_ids
  liveLast : ∀ v ∈ r.liveIds, entity_id_index v ≤ r.last_entity_id
  freeLast : ∀ f ∈ r.free_entity_ids, entity_id_index f ≤ r.last_entity_id
  freeNodup : (r.free_entity_ids.map entity_id_index).Nodup
  freeLiveDisj : ∀ f ∈ r.free_entity_ids, ∀ v ∈ r.liveIds,
    entity_id_index f ≠ entity_id_index v
  lastLe : r.last_entity_id ≤ entity_id_index_mask
  wfTable : MapWF ixId r.storages
  wfStorage : ∀ st ∈ r.storages.values, MapWF ixE st ∧
    ∀ k ∈ st.keys.toL, k ∈ r.liveIds

/-- The freshness invariant for a destroyed handle `e`: the registry is
well formed, `e` is not live, every free-list entry at `e`'s index is `e`
itself (so reuse can only bump `e`'s generation), and `e`'s index has
already been handed out. -/
def FreshInv (e : Nat) (s : Registry) : Prop :=
  RInv s ∧ e ∉ s.liveIds ∧
  (∀ g ∈ s.free_entity_ids, entity_id_index g = entity_id_index e → g = e) ∧
  entity_id_index e ≤ s.last_entity_id

/-! ### List helpers -/

/-- Reading back the slot just written. -/
theorem getD_set_self (l : List Nat) (i : Nat) (a : Nat) (h : i < l.length) :
    (l.set i a).getD i 0 = a := by
  induction l generalizing i with
  | nil => simp at h
  | cons x xs ih =>
    cases i with
    | zero => rfl
    | succ j => exact ih j (by simpa using h)

/-- Writing one slot leaves the others alone. -/
theorem getD_set_ne (l : List Nat) {i j : Nat} (a : Nat) (h : i ≠ j) :
    (l.set i a).getD j 0 = l.getD j 0 := by
  induction l generalizing i j with
  | nil => simp
  | cons x xs ih =>
    cases i with
    | zero => cases j with
      | zero => exact absurd rfl h
      | succ j' => rfl
    | succ i' => cases j with
      | zero => rfl
      | succ j' => exact ih (fun hc => h (by rw [hc]))

/-- Reads inside the original part of an appended list. -/
theorem getD_append_left (l l' : List Nat) {i : Nat} (h : i < l.length) :
    (l ++ l').getD i 0 = l.getD i 0 := by
  induction l generalizing i with
  | nil => simp at h
  | cons x xs ih =>
    cases i with
    | zero => rfl
    | succ j => exact ih (by simpa using h)

/-- Rewriting a slot to the value it already holds is the identity. -/
theorem set_getD_self (l : List Nat) (i : Nat) :
    l.set i (l.getD i 0) = l := by
  induction l generalizing i with
  | nil => rfl
  | cons x xs ih =>
    cases i with
    | zero => rfl
    | succ j => simpa using ih j

/-- The live region of a list as a map over positions. -/
theorem take_eq_range_map (l : List Nat) (n : Nat) (h : n ≤ l.length) :
    l.take n = (List.range n).map (fun i => l.getD i 0) := by
  induction n with
  | zero => simp
  | succ m ih =>
    have hm : m ≤ l.length := Nat.le_of_succ_le h
    have hlt : m < l.length := h
    rw [List.take_succ, List.range_succ, List.map_append, ← ih hm]
    simp [List.getElem?_eq_getElem hlt, List.getD_eq_getElem?_getD]

/-- Membership in the live region, positionally. -/
theorem mem_take_iff (l : List Nat) (n : Nat) (h : n ≤ l.length) (v : Nat) :
    v ∈ l.take n ↔ ∃ i, i < n ∧ l.getD i 0 = v := by
  rw [take_eq_range_map l n h]
  simp [List.mem_map, List.mem_range]

/-- Reads inside the kept region of a `take`. -/
theorem getD_take (l : List Nat) {n i : Nat} (h : i < n) :
    (l.take n).getD i 0 = l.getD i 0 := by
  induction l generalizing n i with
  | nil => simp
  | cons x xs ih =>
    cases n with
    | zero => omega
    | succ m =>
      cases i with
      | zero => rfl
      | succ j => exact ih (Nat.lt_of_succ_lt_succ h)

/-- A membership after `set` is the written value or an original one. -/
theorem mem_of_mem_set {α : Type} {l : List α} {i : Nat} {a x : α}
    (h : x ∈ l.set i a) : x = a ∨ x ∈ l := by
  induction l generalizing i with
  | nil => simp at h
  | cons y ys ih =>
    cases i with
    | zero =>
      rcases List.mem_cons.mp h with h1 | h1
      · exact Or.inl h1
      · exact Or.inr (List.mem_cons_of_mem _ h1)
    | succ j =>
      rcases List.mem_cons.mp h with h1 | h1
      · exact Or.inr (h1 ▸ List.mem_cons_self _ _)
      · rcases ih h1 with h2 | h2
        · exact Or.inl h2
        · exact Or.inr (List.mem_cons_of_mem _ h2)

/-- A Nodup list of `n` values below `n` hits every value below `n`. -/
theorem mem_of_nodup_full (l : List Nat) (n : Nat) (hnd : l.Nodup)
    (hlt : ∀ x ∈ l, x < n) (hlen : n ≤ l.length) : ∀ m, m < n → m ∈ l := by
  intro m hm
  have hsub : l.toFinset ⊆ Finset.range n := by
    intro x hx
    exact Finset.mem_range.mpr (hlt x (List.mem_toFinset.mp hx))
  have hcard : l.toFinset.card = l.length := List.toFinset_card_of_nodup hnd
  have : Finset.range n = l.toFinset := by
    apply (Finset.eq_of_subset_of_card_le hsub ?_).symm
    rw [hcard, Finset.card_range]; exact hlen
  have : m ∈ l.toFinset := by
    rw [← this]; exact Finset.mem_range.mpr hm
  exact List.mem_toFinset.mp this

/-- A unique satisfying member gives count one. -/
theorem countP_eq_one_of_unique {l : List Nat} (p : Nat → Bool) (hnd : l.Nodup)
    (e : Nat) (he : e ∈ l) (hpe : p e = true)
    (huniq : ∀ k ∈ l, p k = true → k = e) : l.countP p = 1 := by
  induction l with
  | nil => simp at he
  | cons a t ih =>
    have hnd' := (List.nodup_cons.mp hnd).2
    have hna := (List.nodup_cons.mp hnd).1
    by_cases ha : a = e
    · subst ha
      have ht : t.countP p = 0 := by
        rw [List.countP_eq_zero]
        intro k hk
        intro hpk
        exact hna ((huniq k (List.mem_cons_of_mem _ hk) hpk) ▸ hk)
      rw [List.countP_cons, ht, hpe]
      rfl
    · have hpa : ¬ p a = true := fun hpa =>
        ha (huniq a (List.mem_cons_self _ _) hpa)
      have he' : e ∈ t := by
        rcases List.mem_cons.mp he with h1 | h1
        · exact absurd h1.symm ha
        · exact h1
      rw [List.countP_cons]
      simp only [hpa]
      simp only [if_neg, Bool.false_eq_true, if_false, Nat.add_zero]
      exact ih hnd' he' (fun k hk => huniq k (List.mem_cons_of_mem _ hk))

/-! ### Entity-id codec lemmas -/

/-- The index field, arithmetically. -/
theorem entity_id_index_eq_mod (id : Nat) : entity_id_index id = id % 2 ^ 22 := by
  have h : entity_id_index_mask = 2 ^ 22 - 1 := by
    simp [entity_id_index_mask, entity_id_index_bits, Nat.shiftLeft_eq]
  rw [entity_id_index, h]
  exact Nat.and_pow_two_sub_one_eq_mod id 22

/-- The generation field, arithmetically. -/
theorem entity_id_version_eq_mod (id : Nat) :
    entity_id_version id = id / 2 ^ 22 % 2 ^ 10 := by
  have h : entity_id_version_mask = 2 ^ 10 - 1 := by
    simp [entity_id_version_mask, entity_id_version_bits, Nat.shiftLeft_eq]
  rw [entity_id_version, h, entity_id_index_bits, Nat.shiftRight_eq_div_pow]
  exact Nat.and_pow_two_sub_one_eq_mod _ 10

/-- The index field is below `2^22`. -/
theorem entity_id_index_lt (id : Nat) : entity_id_index id < 2 ^ 22 := by
  rw [entity_id_index_eq_mod]; exact Nat.mod_lt _ (by norm_num)

/-- The generation field is below `2^10`. -/
theorem entity_id_version_lt (id : Nat) : entity_id_version id < 2 ^ 10 := by
  rw [entity_id_version_eq_mod]; exact Nat.mod_lt _ (by norm_num)

/-- Joining with an in-range index is index-plus-shifted-generation, the
generation truncated to ten bits by the 32-bit wrap. -/
theorem entity_id_join_eq (i v : Nat) (hi : i < 2 ^ 22) :
    entity_id_join i v = 2 ^ 22 * (v % 2 ^ 10) + i := by
  have hshift : (v <<< entity_id_index_bits) % uint32_size = 2 ^ 22 * (v % 2 ^ 10) := by
    rw [entity_id_index_bits, Nat.shiftLeft_eq, uint32_size]
    have h32 : (1 <<< 32 : Nat) = 2 ^ 32 := by norm_num [Nat.shiftLeft_eq]
    rw [h32]
    omega
  rw [entity_id_join, hshift, Nat.or_comm, ← Nat.mul_add_lt_is_or hi]

/-- The index field of a join with an in-range index. -/
theorem entity_id_index_join (i v : Nat) (hi : i < 2 ^ 22) :
    entity_id_index (entity_id_join i v) = i := by
  rw [entity_id_join_eq i v hi, entity_id_index_eq_mod]
  omega

/-- The generation field of a join with an in-range index wraps modulo
`2^10`. -/
theorem entity_id_version_join (i v : Nat) (hi : i < 2 ^ 22) :
    entity_id_version (entity_id_join i v) = v % 2 ^ 10 := by
  rw [entity_id_join_eq i v hi, entity_id_version_eq_mod]
  omega

/-- A value at most the index mask is its own index field. -/
theorem entity_id_index_self {v : Nat} (h : v ≤ entity_id_index_mask) :
    entity_id_index v = v := by
  have hm : entity_id_index_mask = 2 ^ 22 - 1 := by
    norm_num [entity_id_index_mask, entity_id_index_bits, Nat.shiftLeft_eq]
  rw [entity_id_index_eq_mod]
  omega

/-- A value below `2^22` has generation field zero. -/
theorem entity_id_version_small {v : Nat} (h : v < 2 ^ 22) :
    entity_id_version v = 0 := by
  rw [entity_id_version_eq_mod]
  rw [Nat.div_eq_of_lt h]
  rfl

/-! ### Sparse-set well-formedness lemmas -/

/-- The live region has exactly `size` entries. -/
theorem SSWF.toL_length {ix : Nat → Nat} {s : SparseSet} (hwf : SSWF ix s) :
    s.toL.length = s.size := by
  rw [SparseSet.toL, List.length_take]
  exact Nat.min_eq_left (hwf.dlen ▸ hwf.hsize)

/-- Membership in the live region, positionally. -/
theorem SSWF.mem_toL {ix : Nat → Nat} {s : SparseSet} (hwf : SSWF ix s) (v : Nat) :
    v ∈ s.toL ↔ ∃ i, i < s.size ∧ s.dense.getD i 0 = v :=
  mem_take_iff s.dense s.size (hwf.dlen ▸ hwf.hsize) v

/-- `has` decides membership in the live region. -/
theorem SSWF.has_iff {ix : Nat → Nat} {s : SparseSet} (hwf : SSWF ix s) (v : Nat) :
    s.has ix v = true ↔ v ∈ s.toL := by
  rw [SparseSet.has, decide_eq_true_iff, hwf.mem_toL]
  constructor
  · rintro ⟨_, h2, h3⟩
    exact ⟨s.sparse.getD (ix v) 0, h2, h3⟩
  · rintro ⟨i, hi, he⟩
    have h1 : ix v < s.capacity := he ▸ hwf.hix i hi
    have h2 : s.sparse.getD (ix v) 0 = i := he ▸ hwf.hlink i hi
    exact ⟨h1, h2 ▸ hi, h2 ▸ he⟩

/-- Positions of live values map injectively to slots, so the indexed
values of the live region are pairwise distinct. -/
theorem SSWF.nodup_map_ix {ix : Nat → Nat} {s : SparseSet} (hwf : SSWF ix s) :
    (s.toL.map ix).Nodup := by
  have heq : s.toL = (List.range s.size).map (fun i => s.dense.getD i 0) :=
    take_eq_range_map s.dense s.size (hwf.dlen ▸ hwf.hsize)
  rw [heq, List.map_map]
  apply List.Nodup.map_on ?_ (List.nodup_range s.size)
  intro i hi j hj hij
  have hi' := List.mem_range.mp hi
  have hj' := List.mem_range.mp hj
  have h1 := hwf.hlink i hi'
  have h2 := hwf.hlink j hj'
  simp only [Function.comp] at hij
  rw [hij] at h1
  omega

/-- The live region itself has no duplicates. -/
theorem SSWF.nodup_toL {ix : Nat → Nat} {s : SparseSet} (hwf : SSWF ix s) :
    s.toL.Nodup :=
  (hwf.nodup_map_ix).of_map

/-- Two distinct live values have distinct indexer images. -/
theorem SSWF.ix_inj {ix : Nat → Nat} {s : SparseSet} (hwf : SSWF ix s)
    {v w : Nat} (hv : v ∈ s.toL) (hw : w ∈ s.toL) (hne : v ≠ w) :
    ix v ≠ ix w := by
  intro hc
  rcases (hwf.mem_toL v).mp hv with ⟨i, hi, hiv⟩
  rcases (hwf.mem_toL w).mp hw with ⟨j, hj, hjw⟩
  have h1 := hwf.hlink i hi
  have h2 := hwf.hlink j hj
  rw [hiv] at h1
  rw [hjw] at h2
  rw [hc] at h1
  have : i = j := by omega
  exact hne (by rw [← hiv, ← hjw, this])

/-- Effect of the raw write step of `insert` on a state with room for the
new value. -/
theorem sparse_write_spec {ix : Nat → Nat} {t : SparseSet} (v : Nat)
    (hdlen : t.dense.length = t.capacity) (hslen : t.sparse.length = t.capacity)
    (hsize : t.size < t.capacity) (hvi : ix v < t.capacity)
    (hixO : ∀ i, i < t.size → ix (t.dense.getD i 0) < t.capacity)
    (hlinkO : ∀ i, i < t.size → t.sparse.getD (ix (t.dense.getD i 0)) 0 = i)
    (hfr : ∀ i, i < t.size → ix (t.dense.getD i 0) ≠ ix v) :
    SSWF ix { t with dense := t.dense.set t.size v,
                     sparse := t.sparse.set (ix v) t.size, size := t.size + 1 } ∧
    SparseSet.toL { t with dense := t.dense.set t.size v,
                           sparse := t.sparse.set (ix v) t.size, size := t.size + 1 }
      = t.dense.take t.size ++ [v] := by
  have hdget : ∀ i, i < t.size → (t.dense.set t.size v).getD i 0 = t.dense.getD i 0 := by
    intro i hi
    exact getD_set_ne t.dense v (by omega)
  have hdnew : (t.dense.set t.size v).getD t.size 0 = v :=
    getD_set_self t.dense t.size v (by omega)
  constructor
  · constructor
    · simpa using hdlen
    · simpa using hslen
    · simpa using hsize
    · intro i hi
      simp only at hi ⊢
      by_cases hc : i < t.size
      · rw [hdget i hc]; exact hixO i hc
      · have : i = t.size := by omega
        rw [this, hdnew]; exact hvi
    · intro i hi
      simp only at hi ⊢
      by_cases hc : i < t.size
      · rw [hdget i hc]
        rw [getD_set_ne t.sparse t.size (fun hx => hfr i hc hx.symm)]
        exact hlinkO i hc
      · have : i = t.size := by omega
        rw [this, hdnew]
        exact getD_set_self t.sparse (ix v) t.size (by omega)
  · rw [SparseSet.toL]
    simp only
    have hlen : t.size + 1 ≤ (t.dense.set t.size v).length := by
      simp; omega
    rw [take_eq_range_map _ _ hlen, List.range_succ, List.map_append]
    congr 1
    · rw [take_eq_range_map t.dense t.size (by omega)]
      apply List.map_congr_left
      intro a ha
      exact hdget a (List.mem_range.mp ha)
    · simp only [List.map_cons, List.map_nil]
      rw [hdnew]

/-- Shape of `reserve`: capacity becomes the max of the old capacity and
the request; low slots are preserved; everything else is untouched. -/
theorem SparseSet.reserve_facts {s : SparseSet} (hdlen : s.dense.length = s.capacity)
    (hslen : s.sparse.length = s.capacity) (ncap : Nat) :
    (s.reserve ncap).dense.length = (s.reserve ncap).capacity ∧
    (s.reserve ncap).sparse.length = (s.reserve ncap).capacity ∧
    (s.reserve ncap).size = s.size ∧ (s.reserve ncap).maxSize = s.maxSize ∧
    (s.reserve ncap).capacity = max s.capacity ncap ∧
    (∀ i, i < s.capacity → (s.reserve ncap).dense.getD i 0 = s.dense.getD i 0) ∧
    (∀ i, i < s.capacity → (s.reserve ncap).sparse.getD i 0 = s.sparse.getD i 0) := by
  rw [SparseSet.reserve]
  by_cases hc : s.capacity < ncap
  · rw [if_pos hc]
    refine ⟨?_, ?_, rfl, rfl, ?_, ?_, ?_⟩
    · simp only [List.length_append, List.length_replicate, hdlen]
      omega
    · simp only [List.length_append, List.length_replicate, hslen]
      omega
    · simp only
      omega
    · intro i hi
      exact getD_append_left _ _ (by omega)
    · intro i hi
      exact getD_append_left _ _ (by omega)
  · rw [if_neg hc]
    refine ⟨hdlen, hslen, rfl, rfl, by omega, fun _ _ => rfl, fun _ _ => rfl⟩

/-- A failing `insert` leaves the set untouched, and can only happen when
the value's slot is at or past `max_size`. -/
theorem SparseSet.insert_err_spec {ix : Nat → Nat} {s t : SparseSet} {v : Nat}
    {e : Err} (h : s.insert ix v = (t, .error e)) :
    t = s ∧ s.maxSize ≤ ix v := by
  simp only [SparseSet.insert] at h
  split at h
  · cases h
  · split at h
    · next e1 heq =>
      cases h
      refine ⟨rfl, ?_⟩
      split at heq
      · rw [SparseSet.new_capacity_for_] at heq
        split at heq
        · omega
        · split at heq <;> cases heq
      · cases heq
    · cases h

/-- `insert` reports `false` exactly on a present value, leaving the set
untouched. -/
theorem SparseSet.insert_false_spec {ix : Nat → Nat} {s t : SparseSet} {v : Nat}
    (h : s.insert ix v = (t, .ok false)) :
    t = s ∧ s.has ix v = true := by
  simp only [SparseSet.insert] at h
  split at h
  · next hh =>
    cases h
    exact ⟨rfl, hh⟩
  · split at h
    · cases h
    · cases h

/-- A fresh value whose slot is inside `max_size` inserts successfully. -/
theorem SparseSet.insert_ok_of_lt {ix : Nat → Nat} {s : SparseSet} {v : Nat}
    (hnot : s.has ix v = false) (hlt : ix v < s.maxSize) :
    ∃ t, s.insert ix v = (t, .ok true) := by
  simp only [SparseSet.insert, hnot, Bool.false_eq_true, if_false]
  split
  · next e1 heq =>
    exfalso
    split at heq
    · rw [SparseSet.new_capacity_for_] at heq
      split at heq
      · omega
      · split at heq <;> cases heq
    · cases heq
  · exact ⟨_, rfl⟩

/-- Under well-formedness, a value whose slot is not taken by any live
value is absent. -/
theorem SSWF.not_has_of_fresh {ix : Nat → Nat} {s : SparseSet} (hwf : SSWF ix s)
    {v : Nat} (hfresh : ∀ w ∈ s.toL, ix w ≠ ix v) : s.has ix v = false := by
  by_contra hc
  have hh : s.has ix v = true := by
    cases hhas : s.has ix v
    · exact absurd hhas hc
    · rfl
  exact hfresh v ((hwf.has_iff v).mp hh) rfl

/-- If the live region fills the whole capacity, every slot below the
capacity belongs to some live value. -/
theorem SSWF.slot_taken_of_full {ix : Nat → Nat} {s : SparseSet} (hwf : SSWF ix s)
    (hfull : s.size = s.capacity) {c : Nat} (hc : c < s.capacity) :
    ∃ w ∈ s.toL, ix w = c := by
  have hnd : (s.toL.map ix).Nodup := hwf.nodup_map_ix
  have hlt : ∀ x ∈ s.toL.map ix, x < s.capacity := by
    intro x hx
    rcases List.mem_map.mp hx with ⟨w, hw, hwx⟩
    rcases (hwf.mem_toL w).mp hw with ⟨i, hi, hie⟩
    rw [← hwx, ← hie]
    exact hwf.hix i hi
  have hlen : s.capacity ≤ (s.toL.map ix).length := by
    rw [List.length_map, hwf.toL_length, hfull]
  have := mem_of_nodup_full _ _ hnd hlt hlen c hc
  rcases List.mem_map.mp this with ⟨w, hw, hwx⟩
  exact ⟨w, hw, hwx⟩

/-- The full success specification of `insert` on a well-formed set for a
value whose slot is free: the new value is appended to the live region and
well-formedness is preserved. -/
theorem SparseSet.insert_ok_spec {ix : Nat → Nat} {s t : SparseSet} {v : Nat}
    (hwf : SSWF ix s) (hfresh : ∀ w ∈ s.toL, ix w ≠ ix v)
    (h : s.insert ix v = (t, .ok true)) :
    SSWF ix t ∧ t.toL = s.toL ++ [v] ∧ t.size = s.size + 1 ∧
    t.maxSize = s.maxSize ∧ s.capacity ≤ t.capacity := by
  have hnot : s.has ix v = false := hwf.not_has_of_fresh hfresh
  simp only [SparseSet.insert, hnot, Bool.false_eq_true, if_false] at h
  have hfr' : ∀ i, i < s.size → ix (s.dense.getD i 0) ≠ ix v := by
    intro i hi
    apply hfresh
    exact (hwf.mem_toL _).mpr ⟨i, hi, rfl⟩
  split at h
  · cases h
  · next ncap heq =>
    have hncap : (s.capacity ≤ ix v ∧ ix v < ncap ∧ s.capacity < ncap) ∨
        (ncap = s.capacity ∧ ix v < s.capacity) := by
      split at heq
      · next hcap =>
        rw [SparseSet.new_capacity_for_] at heq
        split at heq
        · cases heq
        · next hms =>
          split at heq <;>
          · cases heq
            left
            omega
      · next hcap =>
        cases heq
        right
        exact ⟨rfl, by omega⟩
    obtain ⟨hd1, hs1, hsz1, hm1, hcap1, hdget1, hsget1⟩ :=
      SparseSet.reserve_facts hwf.dlen hwf.slen ncap
    set s1 := s.reserve ncap with hs1def
    have hsizelt : s1.size < s1.capacity := by
      rcases hncap with ⟨hge, hlt, hcs⟩ | ⟨heq2, hlt⟩
      · rw [hsz1, hcap1]
        have := hwf.hsize
        omega
      · rw [hsz1, hcap1, heq2]
        by_contra hle
        have hfull : s.size = s.capacity := by
          have := hwf.hsize
          omega
        rcases hwf.slot_taken_of_full hfull (c := ix v) hlt with ⟨w, hw, hwx⟩
        exact hfresh w hw hwx
    have hvicap : ix v < s1.capacity := by
      rcases hncap with ⟨hge, hlt, hcs⟩ | ⟨heq2, hlt⟩
      · rw [hcap1]; omega
      · rw [hcap1, heq2]; omega
    have hdgets : ∀ i, i < s1.size → s1.dense.getD i 0 = s.dense.getD i 0 := by
      intro i hi
      apply hdget1
      rw [hsz1] at hi
      exact Nat.lt_of_lt_of_le hi hwf.hsize
    have hixO : ∀ i, i < s1.size → ix (s1.dense.getD i 0) < s1.capacity := by
      intro i hi
      rw [hdgets i hi]
      have : ix (s.dense.getD i 0) < s.capacity := hwf.hix i (hsz1 ▸ hi)
      rw [hcap1]
      omega
    have hlinkO : ∀ i, i < s1.size → s1.sparse.getD (ix (s1.dense.getD i 0)) 0 = i := by
      intro i hi
      rw [hdgets i hi]
      rw [hsget1 _ (hwf.hix i (hsz1 ▸ hi))]
      exact hwf.hlink i (hsz1 ▸ hi)
    have hfrO : ∀ i, i < s1.size → ix (s1.dense.getD i 0) ≠ ix v := by
      intro i hi
      rw [hdgets i hi]
      exact hfr' i (hsz1 ▸ hi)
    obtain ⟨hw1, hw2⟩ := @sparse_write_spec ix s1 v hd1 hs1 hsizelt
      hvicap hixO hlinkO hfrO
    cases h
    refine ⟨hw1, ?_, by simp [hsz1], by simp [hm1], ?_⟩
    · rw [hw2]
      congr 1
      rw [SparseSet.toL, take_eq_range_map s.dense s.size (hwf.dlen ▸ hwf.hsize),
        take_eq_range_map s1.dense s1.size (hd1 ▸ (by omega : s1.size ≤ s1.capacity)), hsz1]
      apply List.map_congr_left
      intro a ha
      exact hdgets a (hsz1 ▸ List.mem_range.mp ha)
    · simp only
      rw [hcap1]
      omega

/-- Erasing an absent value is a no-op reporting `false`. -/
theorem SparseSet.erase_not_has {ix : Nat → Nat} {s : SparseSet} {v : Nat}
    (h : s.has ix v = false) : s.unordered_erase ix v = (s, false) := by
  simp [SparseSet.unordered_erase, h]

/-- The full specification of `unordered_erase` on a well-formed set for a
present value: swap-and-pop removes exactly that value, well-formedness is
preserved, and a survivor's slot moves to the erased value's dense position
exactly when it was the last live entry. -/
theorem SparseSet.erase_spec {ix : Nat → Nat} {s : SparseSet} {v : Nat}
    (hwf : SSWF ix s) (h : s.has ix v = true) :
    (s.unordered_erase ix v).2 = true ∧
    SSWF ix (s.unordered_erase ix v).1 ∧
    (s.unordered_erase ix v).1.size = s.size - 1 ∧
    (s.unordered_erase ix v).1.capacity = s.capacity ∧
    (s.unordered_erase ix v).1.maxSize = s.maxSize ∧
    (∀ w, w ∈ (s.unordered_erase ix v).1.toL ↔ (w ∈ s.toL ∧ w ≠ v)) ∧
    (∀ w p, w ≠ v → p < s.size → s.dense.getD p 0 = w →
      (s.unordered_erase ix v).1.sparse.getD (ix w) 0 =
        (if p = s.size - 1 then s.sparse.getD (ix v) 0 else p)) := by
  have hcap : ix v < s.capacity ∧ s.sparse.getD (ix v) 0 < s.size ∧
      s.dense.getD (s.sparse.getD (ix v) 0) 0 = v := by
    simpa [SparseSet.has, decide_eq_true_iff] using h
  obtain ⟨hvc, his, hdv⟩ := hcap
  have hss := hwf.hsize
  have hdl := hwf.dlen
  have hsl := hwf.slen
  set i := s.sparse.getD (ix v) 0 with hidef
  set L := s.size - 1 with hLdef
  have hLlt : L < s.size := by omega
  set last := s.dense.getD L 0 with hlastdef
  have hixlast : ix last < s.capacity := hwf.hix L hLlt
  have hlinklast : s.sparse.getD (ix last) 0 = L := hwf.hlink L hLlt
  have hilen : i < s.dense.length := by rw [hwf.dlen]; exact Nat.lt_of_lt_of_le his hwf.hsize
  have hlastlen : ix last < s.sparse.length := by rw [hwf.slen]; exact hixlast
  have herase : s.unordered_erase ix v =
      ({ s with dense := s.dense.set i last,
                sparse := s.sparse.set (ix last) i, size := L }, true) := by
    rw [SparseSet.unordered_erase, if_pos h]
  rw [herase]
  have hdlen' : (s.dense.set i last).length = s.capacity := by
    rw [List.length_set]; exact hwf.dlen
  refine ⟨rfl, ?_, rfl, rfl, rfl, ?_, ?_⟩
  · constructor
    · simpa using hdlen'
    · simp only [List.length_set]; exact hwf.slen
    · simp only; omega
    · intro j hj
      simp only at hj ⊢
      by_cases hji : j = i
      · rw [hji, getD_set_self s.dense i last hilen]
        exact hixlast
      · rw [getD_set_ne s.dense last (fun hc => hji hc.symm)]
        exact hwf.hix j (by omega)
    · intro j hj
      simp only at hj ⊢
      by_cases hji : j = i
      · rw [hji, getD_set_self s.dense i last hilen,
          getD_set_self s.sparse (ix last) i hlastlen]
      · rw [getD_set_ne s.dense last (fun hc => hji hc.symm)]
        have hwne : ix (s.dense.getD j 0) ≠ ix last := by
          intro hc
          have h1 := hwf.hlink j (by omega)
          rw [hc, hlinklast] at h1
          omega
        rw [getD_set_ne s.sparse i hwne.symm]
        exact hwf.hlink j (by omega)
  · intro w
    rw [SparseSet.toL]
    simp only
    rw [mem_take_iff _ L (by rw [hdlen']; omega)]
    constructor
    · rintro ⟨j, hj, hje⟩
      by_cases hji : j = i
      · rw [hji, getD_set_self s.dense i last hilen] at hje
        constructor
        · exact (hwf.mem_toL w).mpr ⟨L, hLlt, hje⟩
        · intro hwv
          rw [hwv] at hje
          rw [hje] at hlinklast
          omega
      · rw [getD_set_ne s.dense last (fun hc => hji hc.symm)] at hje
        constructor
        · exact (hwf.mem_toL w).mpr ⟨j, by omega, hje⟩
        · intro hwv
          have h1 := hwf.hlink j (by omega)
          rw [hje, hwv] at h1
          omega
    · rintro ⟨hw, hwv⟩
      obtain ⟨p, hp, hpe⟩ := (hwf.mem_toL w).mp hw
      have hpi : p ≠ i := by
        intro hc
        rw [hc] at hpe
        rw [hpe] at hdv
        exact hwv hdv
      by_cases hpL : p = L
      · have hiL : i < L := by
          rcases Nat.lt_or_ge i L with h1 | h1
          · exact h1
          · exfalso
            have : i = L := by omega
            exact hpi (by omega)
        refine ⟨i, hiL, ?_⟩
        rw [getD_set_self s.dense i last hilen, hlastdef, ← hpL, hpe]
      · refine ⟨p, by omega, ?_⟩
        rw [getD_set_ne s.dense last hpi.symm]
        exact hpe
  · intro w p hwv hp hpe
    simp only
    by_cases hpL : p = L
    · rw [if_pos hpL]
      have hwlast : w = last := by
        rw [hlastdef, ← hpL]
        exact hpe.symm
      rw [hwlast, getD_set_self s.sparse (ix last) i hlastlen]
    · rw [if_neg hpL]
      have hwne : ix w ≠ ix last := by
        intro hc
        have h1 := hwf.hlink p hp
        rw [hpe] at h1
        rw [hc, hlinklast] at h1
        omega
      rw [getD_set_ne s.sparse i hwne.symm]
      have h1 := hwf.hlink p hp
      rw [hpe] at h1
      exact h1

/-! ### Generic list access helpers (for polymorphic value vectors) -/

/-- Reading back a just-written slot, `get?` form. -/
theorem get?_set_self {α : Type} (l : List α) (i : Nat) (a : α) (h : i < l.length) :
    (l.set i a).get? i = some a := by
  simp [List.getElem?_set_self h]

/-- Reading another slot after a write, `get?` form. -/
theorem get?_set_ne {α : Type} (l : List α) {i j : Nat} (a : α) (h : i ≠ j) :
    (l.set i a).get? j = l.get? j := by
  simp [List.getElem?_set_ne h]

/-- Reading inside the kept region of `dropLast`. -/
theorem get?_dropLast {α : Type} (l : List α) {j : Nat} (h : j < l.length - 1) :
    l.dropLast.get? j = l.get? j := by
  rw [List.dropLast_eq_take]
  simp [List.getElem?_take_of_lt h]

/-- `get?` inside the list agrees with `getD`. -/
theorem get?_eq_getD {α : Type} (l : List α) (i : Nat) (d : α) (h : i < l.length) :
    l.get? i = some (l.getD i d) := by
  simp [List.getD_eq_getElem?_getD, List.getElem?_eq_getElem h]

/-- The value slot appended at the end. -/
theorem getD_append_at (l : List Nat) (x : Nat) : (l ++ [x]).getD l.length 0 = x := by
  induction l with
  | nil => rfl
  | cons y ys ih => simp [ih]

/-- Positions inside the live region read through `toL`. -/
theorem SSWF.dense_getD_toL {ix : Nat → Nat} {s : SparseSet} (_hwf : SSWF ix s)
    {i : Nat} (hi : i < s.size) : s.dense.getD i 0 = s.toL.getD i 0 :=
  (getD_take s.dense hi).symm

/-! ### Sparse-map lemmas -/

/-- `find_value` on an absent key is null. -/
theorem SparseMap.find_value_not_has {V : Type} {ix : Nat → Nat} {m : SparseMap V}
    {k : Nat} (h : m.keys.has ix k = false) : m.find_value ix k = none := by
  rw [SparseMap.find_value, SparseSet.find_index, if_neg (by simp [h])]

/-- `find_value` on a present key reads the dense slot. -/
theorem SparseMap.find_value_has {V : Type} {ix : Nat → Nat} {m : SparseMap V}
    {k : Nat} (h : m.keys.has ix k = true) :
    m.find_value ix k = m.values.get? (m.keys.sparse.getD (ix k) 0) := by
  rw [SparseMap.find_value, SparseSet.find_index, if_pos h]

/-- Under map well-formedness, `find_value` hits exactly the present
keys. -/
theorem MapWF.find_value_isSome {V : Type} {ix : Nat → Nat} {m : SparseMap V}
    (hwf : MapWF ix m) (k : Nat) :
    (m.find_value ix k).isSome = m.keys.has ix k := by
  cases hh : m.keys.has ix k
  · rw [SparseMap.find_value_not_has hh]; rfl
  · rw [SparseMap.find_value_has hh]
    have hcap : m.keys.sparse.getD (ix k) 0 < m.keys.size := by
      rw [SparseSet.has, decide_eq_true_iff] at hh
      exact hh.2.1
    have hlt : m.keys.sparse.getD (ix k) 0 < m.values.length := by
      rw [hwf.2]; exact hcap
    rw [List.get?_eq_getElem?, List.getElem?_eq_getElem hlt]
    rfl

/-- A failing `emplace` leaves the map untouched: the value pushed before
the key insertion failed has been popped back off. -/
theorem SparseMap.emplace_err {V : Type} {ix : Nat → Nat} {m m' : SparseMap V}
    {k : Nat} {v : V} {e : Err} (h : m.emplace ix k v = (m', .error e)) :
    m' = m ∧ m.keys.maxSize ≤ ix k := by
  rw [SparseMap.emplace] at h
  split at h
  · cases h
  · split at h
    · next ks res heq =>
      cases h
      exact ⟨rfl, (SparseSet.insert_err_spec heq).2⟩
    · cases h

/-- `emplace` reports `false` exactly on a present key, leaving the map
untouched. -/
theorem SparseMap.emplace_false {V : Type} {ix : Nat → Nat} {m m' : SparseMap V}
    {k : Nat} {v : V} (h : m.emplace ix k v = (m', .ok false)) :
    m' = m ∧ m.keys.has ix k = true := by
  rw [SparseMap.emplace] at h
  split at h
  · next hh =>
    cases h
    exact ⟨rfl, hh⟩
  · next hh =>
    split at h
    · cases h
    · next ks res heq =>
      simp only [Prod.mk.injEq, Except.ok.injEq] at h
      exact absurd (SparseSet.insert_false_spec (h.2 ▸ heq)).2 hh

/-- A fresh key whose slot is inside `max_size` emplaces successfully. -/
theorem SparseMap.emplace_ok_of_lt {V : Type} {ix : Nat → Nat} {m : SparseMap V}
    {k : Nat} (v : V) (hnot : m.keys.has ix k = false)
    (hlt : ix k < m.keys.maxSize) :
    ∃ m', m.emplace ix k v = (m', .ok true) := by
  rcases SparseSet.insert_ok_of_lt hnot hlt with ⟨t, ht⟩
  rw [SparseMap.emplace, if_neg (by simp [hnot]), ht]
  exact ⟨_, rfl⟩

/-- The success specification of `emplace` on a well-formed map for a key
whose slot is free: key and value are appended in parallel, the new pair
is found, and all other lookups are unchanged. -/
theorem SparseMap.emplace_ok {V : Type} {ix : Nat → Nat} {m m' : SparseMap V}
    {k : Nat} {v : V} (hwf : MapWF ix m)
    (hfresh : ∀ w ∈ m.keys.toL, ix w ≠ ix k)
    (h : m.emplace ix k v = (m', .ok true)) :
    MapWF ix m' ∧ m'.keys.toL = m.keys.toL ++ [k] ∧
    m'.values = m.values ++ [v] ∧ m'.keys.maxSize = m.keys.maxSize ∧
    m'.keys.size = m.keys.size + 1 ∧
    m'.find_value ix k = some v ∧
    (∀ k', k' ≠ k → m'.find_value ix k' = m.find_value ix k') := by
  rw [SparseMap.emplace] at h
  split at h
  · cases h
  · split at h
    · cases h
    · next ks res heq =>
      simp only [Prod.mk.injEq, Except.ok.injEq] at h
      obtain ⟨hm', hres⟩ := h
      rw [hres] at heq
      obtain ⟨hkswf, hkstoL, hkssz, hksmax, _⟩ :=
        SparseSet.insert_ok_spec hwf.1 hfresh heq
      subst hm'
      have hpar : (m.values ++ [v]).length = ks.size := by
        simp [hwf.2, hkssz]
      have hkpos : ks.dense.getD m.keys.size 0 = k := by
        have h1 : m.keys.size < ks.size := by omega
        rw [hkswf.dense_getD_toL h1, hkstoL]
        have h2 : m.keys.toL.length = m.keys.size := hwf.1.toL_length
        rw [← h2]
        exact getD_append_at _ _
      have hklink : ks.sparse.getD (ix k) 0 = m.keys.size := by
        have h1 : m.keys.size < ks.size := by omega
        have := hkswf.hlink m.keys.size h1
        rw [hkpos] at this
        exact this
      have hhask : ks.has ix k = true := by
        rw [hkswf.has_iff]
        rw [hkstoL]
        simp
      refine ⟨⟨hkswf, hpar⟩, hkstoL, rfl, hksmax, hkssz, ?_, ?_⟩
      · rw [SparseMap.find_value, SparseSet.find_index, if_pos hhask]
        simp only [hklink]
        rw [← hwf.2, List.get?_eq_getElem?]
        exact List.getElem?_concat_length m.values v
      · intro k' hk'
        cases hh : m.keys.has ix k'
        · have hnot' : ks.has ix k' = false := by
            cases hc : ks.has ix k'
            · rfl
            · exfalso
              have := (hkswf.has_iff k').mp hc
              rw [hkstoL] at this
              rcases List.mem_append.mp this with h1 | h1
              · rw [← hwf.1.has_iff k'] at h1
                rw [hh] at h1
                cases h1
              · simp at h1
                exact hk' h1
          rw [SparseMap.find_value_not_has hh, SparseMap.find_value_not_has hnot']
        · have hmem := (hwf.1.has_iff k').mp hh
          rcases (hwf.1.mem_toL k').mp hmem with ⟨p, hp, hpe⟩
          have hlinkp : m.keys.sparse.getD (ix k') 0 = p := by
            have := hwf.1.hlink p hp
            rw [hpe] at this
            exact this
          have hkp : ks.dense.getD p 0 = k' := by
            have h1 : p < ks.size := by omega
            rw [hkswf.dense_getD_toL h1, hkstoL]
            rw [hwf.1.dense_getD_toL hp] at hpe
            rw [← hpe]
            have h2 : p < m.keys.toL.length := by rw [hwf.1.toL_length]; exact hp
            exact (getD_append_left _ _ h2)
          have hlinkp' : ks.sparse.getD (ix k') 0 = p := by
            have h1 : p < ks.size := by omega
            have := hkswf.hlink p h1
            rw [hkp] at this
            exact this
          have hhask' : ks.has ix k' = true := by
            rw [hkswf.has_iff, hkstoL]
            exact List.mem_append.mpr (Or.inl hmem)
          rw [SparseMap.find_value_has hh, SparseMap.find_value_has hhask']
          simp only [hlinkp, hlinkp']
          have hplen : p < m.values.length := by rw [hwf.2]; exact hp
          rw [List.get?_eq_getElem?, List.get?_eq_getElem?]
          exact List.getElem?_append_left hplen

/-- `assign` on a present key overwrites the value slot in place. -/
theorem SparseMap.assign_present {V : Type} {ix : Nat → Nat} {m : SparseMap V}
    {k : Nat} {v : V} (hh : m.keys.has ix k = true) :
    m.assign ix k v =
      ({ keys := m.keys,
         values := m.values.set (m.keys.sparse.getD (ix k) 0) v }, .ok ()) := by
  have he : m.emplace ix k v = (m, .ok false) := by
    rw [SparseMap.emplace, if_pos hh]
  have hfi : m.keys.find_index ix k = some (m.keys.sparse.getD (ix k) 0) := by
    rw [SparseSet.find_index, if_pos hh]
  rw [SparseMap.assign]
  simp only [he, hfi]

/-- The effect of `assign` on a present key: the pair is overwritten,
everything else keeps its value, and well-formedness is preserved. -/
theorem SparseMap.assign_present_spec {V : Type} {ix : Nat → Nat} {m : SparseMap V}
    {k : Nat} {v : V} (hwf : MapWF ix m) (hh : m.keys.has ix k = true) :
    MapWF ix (m.assign ix k v).1 ∧ (m.assign ix k v).1.keys = m.keys ∧
    (m.assign ix k v).2 = .ok () ∧
    (m.assign ix k v).1.find_value ix k = some v ∧
    (∀ k', k' ≠ k → (m.assign ix k v).1.find_value ix k' = m.find_value ix k') := by
  have hres := SparseMap.assign_present (v := v) hh
  have h1 : (m.assign ix k v).1 = { keys := m.keys, values := m.values.set (m.keys.sparse.getD (ix k) 0) v } := by
    rw [hres]
  have h2 : (m.assign ix k v).2 = .ok () := by rw [hres]
  have hp : m.keys.sparse.getD (ix k) 0 < m.keys.size := by
    have := hh
    rw [SparseSet.has, decide_eq_true_iff] at this
    exact this.2.1
  have hplen : m.keys.sparse.getD (ix k) 0 < m.values.length := by
    rw [hwf.2]; exact hp
  have hdk : m.keys.dense.getD (m.keys.sparse.getD (ix k) 0) 0 = k := by
    have := hh
    rw [SparseSet.has, decide_eq_true_iff] at this
    exact this.2.2
  refine ⟨?_, ?_, h2, ?_, ?_⟩
  · rw [h1]
    exact ⟨hwf.1, by simp [hwf.2]⟩
  · rw [h1]
  · rw [h1]
    have hs : SparseSet.find_index ix m.keys k = some (m.keys.sparse.getD (ix k) 0) := by
      rw [SparseSet.find_index, if_pos hh]
    simp only [SparseMap.find_value, hs]
    exact get?_set_self _ _ _ hplen
  · intro k' hk'
    rw [h1]
    cases hh' : m.keys.has ix k'
    · have hn : SparseSet.find_index ix m.keys k' = none := by
        rw [SparseSet.find_index, if_neg (by simp [hh'])]
      simp only [SparseMap.find_value, hn]
    · have hs : SparseSet.find_index ix m.keys k' = some (m.keys.sparse.getD (ix k') 0) := by
        rw [SparseSet.find_index, if_pos hh']
      simp only [SparseMap.find_value, hs]
      apply get?_set_ne
      intro hc
      have hdk' : m.keys.dense.getD (m.keys.sparse.getD (ix k') 0) 0 = k' := by
        have := hh'
        rw [SparseSet.has, decide_eq_true_iff] at this
        exact this.2.2
      rw [← hc] at hdk'
      rw [hdk] at hdk'
      exact hk' hdk'.symm

/-- On an absent key, `assign` is `emplace` with the boolean result
erased. -/
theorem SparseMap.assign_absent {V : Type} {ix : Nat → Nat} {m m' : SparseMap V}
    {k : Nat} {v : V} {r : Except Err Unit} (hnot : m.keys.has ix k = false)
    (h : m.assign ix k v = (m', r)) :
    (∃ e, r = .error e ∧ m.emplace ix k v = (m', .error e)) ∨
    (r = .ok () ∧ m.emplace ix k v = (m', .ok true)) := by
  rw [SparseMap.assign] at h
  rcases he : m.emplace ix k v with ⟨m1, res⟩
  rw [he] at h
  match res, h with
  | .error e, h =>
    simp only [Prod.mk.injEq] at h
    exact Or.inl ⟨e, h.2.symm, h.1 ▸ rfl⟩
  | .ok true, h =>
    simp only [Prod.mk.injEq] at h
    exact Or.inr ⟨h.2.symm, h.1 ▸ rfl⟩
  | .ok false, h =>
    exact absurd (SparseMap.emplace_false he).2 (by simp [hnot])

/-- Erasing an absent key from a sparse map is a no-op reporting
`false`. -/
theorem SparseMap.map_erase_not_has {V : Type} [Inhabited V] {ix : Nat → Nat}
    {m : SparseMap V} {k : Nat} (hh : m.keys.has ix k = false) :
    m.unordered_erase ix k = (m, false) := by
  simp [SparseMap.unordered_erase, hh]

/-- The full specification of sparse-map `unordered_erase` on a present
key: the key is removed, the parallel vectors stay in step, and every
other key keeps its paired value. -/
theorem SparseMap.map_erase_spec {V : Type} [Inhabited V] {ix : Nat → Nat}
    {m : SparseMap V} {k : Nat} (hwf : MapWF ix m) (hh : m.keys.has ix k = true) :
    (m.unordered_erase ix k).2 = true ∧
    MapWF ix (m.unordered_erase ix k).1 ∧
    (m.unordered_erase ix k).1.keys.maxSize = m.keys.maxSize ∧
    (∀ w, w ∈ (m.unordered_erase ix k).1.keys.toL ↔ (w ∈ m.keys.toL ∧ w ≠ k)) ∧
    (m.unordered_erase ix k).1.find_value ix k = none ∧
    (∀ k', k' ≠ k → (m.unordered_erase ix k).1.find_value ix k' = m.find_value ix k') := by
  obtain ⟨hvc, hi, hdi⟩ : ix k < m.keys.capacity ∧
      m.keys.sparse.getD (ix k) 0 < m.keys.size ∧
      m.keys.dense.getD (m.keys.sparse.getD (ix k) 0) 0 = k := by
    have := hh
    rw [SparseSet.has, decide_eq_true_iff] at this
    exact this
  set i := m.keys.sparse.getD (ix k) 0 with hidef
  set lastV := m.values.getD (m.values.length - 1) default with hlastVdef
  set ks' := (m.keys.unordered_erase ix k).1 with hksdef
  set vs' := (m.values.set i lastV).dropLast with hvsdef
  have herase : m.unordered_erase ix k = ({ keys := ks', values := vs' }, true) := by
    rw [SparseMap.unordered_erase, if_pos hh]
  obtain ⟨_, hkswf, hsz, _, hmaxeq, hmem, hpos⟩ :=
    SparseSet.erase_spec hwf.1 hh
  have hlen : m.values.length = m.keys.size := hwf.2
  rw [herase]
  have hpar : vs'.length = ks'.size := by
    rw [hvsdef, List.length_dropLast, List.length_set, hlen, hsz]
  have hknotmem : ∀ w, w ∈ ks'.toL → w ≠ k := fun w hw => ((hmem w).mp hw).2
  have hkabs : ks'.has ix k = false := by
    cases hc : ks'.has ix k
    · rfl
    · exact absurd rfl (hknotmem k ((hkswf.has_iff k).mp hc))
  refine ⟨rfl, ⟨hkswf, hpar⟩, hmaxeq, hmem, ?_, ?_⟩
  · exact SparseMap.find_value_not_has (m := { keys := ks', values := vs' }) hkabs
  · intro k' hk'
    cases hh' : m.keys.has ix k'
    · have habs' : ks'.has ix k' = false := by
        cases hc : ks'.has ix k'
        · rfl
        · exfalso
          have := ((hmem k').mp ((hkswf.has_iff k').mp hc)).1
          rw [← hwf.1.has_iff k'] at this
          rw [hh'] at this
          cases this
      rw [SparseMap.find_value_not_has (m := { keys := ks', values := vs' }) habs',
        SparseMap.find_value_not_has hh']
    · obtain ⟨_, hp, hdp⟩ : ix k' < m.keys.capacity ∧
          m.keys.sparse.getD (ix k') 0 < m.keys.size ∧
          m.keys.dense.getD (m.keys.sparse.getD (ix k') 0) 0 = k' := by
        have := hh'
        rw [SparseSet.has, decide_eq_true_iff] at this
        exact this
      set p := m.keys.sparse.getD (ix k') 0 with hpdef
      have hpi : p ≠ i := by
        intro hc
        rw [hc] at hdp
        rw [hdi] at hdp
        exact hk' hdp.symm
      have hmemk' : k' ∈ ks'.toL := by
        rw [hmem]
        exact ⟨(hwf.1.mem_toL k').mpr ⟨p, hp, hdp⟩, hk'⟩
      have hhas' : ks'.has ix k' = true := (hkswf.has_iff k').mpr hmemk'
      have hmove := hpos k' p hk' hp hdp
      rw [SparseMap.find_value_has (m := { keys := ks', values := vs' }) hhas',
        SparseMap.find_value_has hh']
      simp only
      rw [← hksdef] at hmove
      rw [hmove, ← hpdef]
      by_cases hpL : p = m.keys.size - 1
      · rw [if_pos hpL, ← hidef]
        have hiL : i < m.keys.size - 1 := by omega
        have h1 : vs'.get? i = (m.values.set i lastV).get? i := by
          rw [hvsdef]
          exact get?_dropLast _ (by rw [List.length_set]; omega)
        rw [h1, get?_set_self _ _ _ (by omega)]
        rw [hpL]
        rw [get?_eq_getD m.values (m.keys.size - 1) default (by omega)]
        rw [hlastVdef, hlen]
      · rw [if_neg hpL]
        have hpLlt : p < m.keys.size - 1 := by omega
        have h1 : vs'.get? p = (m.values.set i lastV).get? p := by
          rw [hvsdef]
          exact get?_dropLast _ (by rw [List.length_set]; omega)
        rw [h1, get?_set_ne _ _ (fun hc => hpi hc.symm)]

/-- A fresh sparse set is well formed. -/
theorem SSWF_mk0 (ix : Nat → Nat) (M : Nat) : SSWF ix (SparseSet.mk0 M) := by
  constructor <;> simp [SparseSet.mk0]

/-- Inserting reports `true` only when the value was absent. -/
theorem SparseSet.insert_ok_not_has {ix : Nat → Nat} {s t : SparseSet} {v : Nat}
    (h : s.insert ix v = (t, .ok true)) : s.has ix v = false := by
  cases hc : s.has ix v
  · rfl
  · rw [SparseSet.insert, if_pos hc] at h
    cases h

/-- One sparse-set operation with the plain unsigned indexer preserves
well-formedness. -/
theorem SparseSet.applyOp_wf {s : SparseSet} (hwf : SSWF ixId s) (op : SOp) :
    SSWF ixId (s.applyOp op) := by
  cases op with
  | ins v =>
    rcases hr : s.insert ixId v with ⟨t, res⟩
    have h1 : s.applyOp (.ins v) = t := by rw [SparseSet.applyOp, hr]
    rw [h1]
    match res, hr with
    | .ok true, hr =>
      have hnot := SparseSet.insert_ok_not_has hr
      have hfresh : ∀ w ∈ s.toL, ixId w ≠ ixId v := by
        intro w hw hc2
        have hv : v ∈ s.toL := by
          have : w = v := hc2
          rw [← this]; exact hw
        rw [← hwf.has_iff v, hnot] at hv
        cases hv
      exact (SparseSet.insert_ok_spec hwf hfresh hr).1
    | .ok false, hr => exact (SparseSet.insert_false_spec hr).1 ▸ hwf
    | .error e, hr => exact (SparseSet.insert_err_spec hr).1 ▸ hwf
  | ers v =>
    cases hc : s.has ixId v
    · have h1 : s.applyOp (.ers v) = s := by
        rw [SparseSet.applyOp, SparseSet.erase_not_has hc]
      rw [h1]; exact hwf
    · exact (SparseSet.erase_spec hwf hc).2.1

/-- Well-formedness along any sparse-set operation sequence. -/
theorem SparseSet.foldl_wf {s : SparseSet} (hwf : SSWF ixId s) (ops : List SOp) :
    SSWF ixId (ops.foldl SparseSet.applyOp s) := by
  induction ops generalizing s with
  | nil => exact hwf
  | cons op rest ih => exact ih (s.applyOp_wf hwf op)

/-- Every state produced by running operations from a fresh set is well
formed. -/
theorem SparseSet.run_wf (M : Nat) (ops : List SOp) :
    SSWF ixId (SparseSet.run M ops) :=
  SparseSet.foldl_wf (SSWF_mk0 ixId M) ops

/-- C5: for every sequence of `insert` / `unordered_erase` operations on a
sparse set (with the plain unsigned indexer), the state after the sequence
satisfies the bijection invariant: every live value `v` has
`sparse[v] < size` and `dense[sparse[v]] = v`, the live values are
pairwise distinct, and their number equals `size`.  Since every prefix of
a sequence is itself a sequence, this covers the state after each
operation. -/
theorem claim_C5 (M : Nat) (ops : List SOp) :
    (∀ v ∈ (SparseSet.run M ops).toL,
      (SparseSet.run M ops).sparse.getD v 0 < (SparseSet.run M ops).size ∧
      (SparseSet.run M ops).dense.getD ((SparseSet.run M ops).sparse.getD v 0) 0 = v) ∧
    (SparseSet.run M ops).toL.Nodup ∧
    (SparseSet.run M ops).toL.length = (SparseSet.run M ops).size := by
  have hwf : SSWF ixId (SparseSet.run M ops) := SparseSet.run_wf M ops
  refine ⟨?_, hwf.nodup_toL, hwf.toL_length⟩
  intro v hv
  rcases (hwf.mem_toL v).mp hv with ⟨i, hi, hie⟩
  have h1 := hwf.hlink i hi
  rw [hie] at h1
  simp only [ixId] at h1
  rw [h1]
  exact ⟨hi, hie⟩

/-- Dropping the pairings of one key does not disturb lookups of other
keys in the spec-level association list. -/
theorem specLookup_filter_ne {l : List (Nat × Nat)} {k k' : Nat} (h : k' ≠ k) :
    specLookup (l.filter (fun q => decide (q.1 ≠ k))) k' = specLookup l k' := by
  induction l with
  | nil => rfl
  | cons q rest ih =>
    by_cases hq : q.1 = k
    · rw [List.filter_cons_of_neg (by simp [hq])]
      rw [ih]
      rcases q with ⟨qk, qv⟩
      simp only at hq
      rw [specLookup, if_neg (by rw [hq]; exact fun hc => h hc.symm)]
    · rw [List.filter_cons_of_pos (by simp [hq])]
      rcases q with ⟨qk, qv⟩
      by_cases hqk : qk = k'
      · rw [specLookup, if_pos hqk, specLookup, if_pos hqk]
      · rw [specLookup, if_neg hqk, specLookup, if_neg hqk, ih]

/-- After dropping the pairings of a key, that key looks up to nothing. -/
theorem specLookup_filter_self (l : List (Nat × Nat)) (k : Nat) :
    specLookup (l.filter (fun q => decide (q.1 ≠ k))) k = none := by
  induction l with
  | nil => rfl
  | cons q rest ih =>
    by_cases hq : q.1 = k
    · rw [List.filter_cons_of_neg (by simp [hq])]
      exact ih
    · rw [List.filter_cons_of_pos (by simp [hq])]
      rcases q with ⟨qk, qv⟩
      simp only at hq
      rw [specLookup, if_neg hq]
      exact ih

/-- A fresh sparse map is well formed. -/
theorem MapWF_mk0 (V : Type) (ix : Nat → Nat) (M : Nat) :
    MapWF ix (SparseMap.mk0 V M) :=
  ⟨SSWF_mk0 ix M, rfl⟩

/-- `emplace` reporting `true` means the key was absent. -/
theorem SparseMap.emplace_ok_not_has {V : Type} {ix : Nat → Nat}
    {m m' : SparseMap V} {k : Nat} {v : V}
    (h : m.emplace ix k v = (m', .ok true)) : m.keys.has ix k = false := by
  cases hc : m.keys.has ix k
  · rfl
  · rw [SparseMap.emplace, if_pos hc] at h
    cases h

/-- With the plain unsigned indexer, an absent key is fresh for every live
key. -/
theorem fresh_of_not_has_ixId {V : Type} {m : SparseMap V} {k : Nat}
    (hwf : MapWF ixId m) (hnot : m.keys.has ixId k = false) :
    ∀ w ∈ m.keys.toL, ixId w ≠ ixId k := by
  intro w hw hc
  have : w = k := hc
  rw [this] at hw
  rw [← hwf.1.has_iff k, hnot] at hw
  cases hw

/-- One sparse-map operation preserves well-formedness and agreement of
`find_value` with the spec-level association list. -/
theorem mapModelStep_rel {m : SparseMap Nat} {l : List (Nat × Nat)}
    (hwf : MapWF ixId m) (hrel : ∀ k0, m.find_value ixId k0 = specLookup l k0)
    (op : MOp) :
    MapWF ixId (mapModelStep (m, l) op).1 ∧
    ∀ k0, (mapModelStep (m, l) op).1.find_value ixId k0 =
      specLookup (mapModelStep (m, l) op).2 k0 := by
  cases op with
  | ins k v =>
    rcases he : m.emplace ixId k v with ⟨m1, res⟩
    match res, he with
    | .ok true, he =>
      have hstep : mapModelStep (m, l) (.ins k v) = (m1, (k, v) :: l) := by
        rw [mapModelStep, he]
      rw [hstep]
      have hnot := SparseMap.emplace_ok_not_has he
      have hfresh := fresh_of_not_has_ixId hwf hnot
      obtain ⟨hwf1, _, _, _, _, hself, hother⟩ := SparseMap.emplace_ok hwf hfresh he
      refine ⟨hwf1, ?_⟩
      intro k0
      by_cases hk0 : k = k0
      · rw [← hk0, hself, specLookup, if_pos rfl]
      · rw [hother k0 (fun hc => hk0 hc.symm), specLookup, if_neg hk0, hrel]
    | .ok false, he =>
      have hstep : mapModelStep (m, l) (.ins k v) = (m1, l) := by
        rw [mapModelStep, he]
      rw [hstep]
      rw [(SparseMap.emplace_false he).1]
      exact ⟨hwf, hrel⟩
    | .error e, he =>
      have hstep : mapModelStep (m, l) (.ins k v) = (m1, l) := by
        rw [mapModelStep, he]
      rw [hstep]
      rw [(SparseMap.emplace_err he).1]
      exact ⟨hwf, hrel⟩
  | asn k v =>
    rcases ha : m.assign ixId k v with ⟨m1, res⟩
    match res, ha with
    | .ok (), ha =>
      have hstep : mapModelStep (m, l) (.asn k v) = (m1, (k, v) :: l) := by
        rw [mapModelStep, ha]
      rw [hstep]
      cases hh : m.keys.has ixId k
      · rcases SparseMap.assign_absent hh ha with ⟨e, he1, _⟩ | ⟨_, he2⟩
        · cases he1
        · have hfresh := fresh_of_not_has_ixId hwf hh
          obtain ⟨hwf1, _, _, _, _, hself, hother⟩ := SparseMap.emplace_ok hwf hfresh he2
          refine ⟨hwf1, ?_⟩
          intro k0
          by_cases hk0 : k = k0
          · rw [← hk0, hself, specLookup, if_pos rfl]
          · rw [hother k0 (fun hc => hk0 hc.symm), specLookup, if_neg hk0, hrel]
      · obtain ⟨hwf1, _, _, hself, hother⟩ := SparseMap.assign_present_spec hwf hh
        have hm1 : (m.assign ixId k v).1 = m1 := by rw [ha]
        rw [hm1] at hwf1 hself hother
        refine ⟨hwf1, ?_⟩
        intro k0
        by_cases hk0 : k = k0
        · rw [← hk0, hself, specLookup, if_pos rfl]
        · rw [hother k0 (fun hc => hk0 hc.symm), specLookup, if_neg hk0, hrel]
    | .error e, ha =>
      have hstep : mapModelStep (m, l) (.asn k v) = (m1, l) := by
        rw [mapModelStep, ha]
      rw [hstep]
      cases hh : m.keys.has ixId k
      · rcases SparseMap.assign_absent hh ha with ⟨e1, _, he1⟩ | ⟨he2, _⟩
        · rw [(SparseMap.emplace_err he1).1]
          exact ⟨hwf, hrel⟩
        · cases he2
      · have := (SparseMap.assign_present_spec (v := v) hwf hh).2.2.1
        rw [ha] at this
        cases this
  | ers k =>
    cases hh : m.keys.has ixId k
    · have hne := SparseMap.map_erase_not_has hh
      have hstep : mapModelStep (m, l) (.ers k) = (m, l) := by
        rw [mapModelStep, hne]
        simp
      rw [hstep]
      exact ⟨hwf, hrel⟩
    · obtain ⟨htrue, hwf1, _, _, hselfnone, hother⟩ := SparseMap.map_erase_spec hwf hh
      have hstep : mapModelStep (m, l) (.ers k) =
          ((m.unordered_erase ixId k).1, l.filter (fun q => decide (q.1 ≠ k))) := by
        rw [mapModelStep]
        rcases hp : m.unordered_erase ixId k with ⟨m2, b⟩
        rw [hp] at htrue
        simp only at htrue
        rw [htrue]
        simp
      rw [hstep]
      refine ⟨hwf1, ?_⟩
      intro k0
      by_cases hk0 : k0 = k
      · rw [hk0, hselfnone, specLookup_filter_self]
      · rw [hother k0 hk0, specLookup_filter_ne hk0, hrel]

/-- The step invariant along any operation sequence. -/
theorem mapFold_rel (ops : List MOp) :
    ∀ (m : SparseMap Nat) (l : List (Nat × Nat)), MapWF ixId m →
    (∀ k0, m.find_value ixId k0 = specLookup l k0) →
    MapWF ixId (ops.foldl mapModelStep (m, l)).1 ∧
    ∀ k0, (ops.foldl mapModelStep (m, l)).1.find_value ixId k0 =
      specLookup (ops.foldl mapModelStep (m, l)).2 k0 := by
  induction ops with
  | nil => exact fun m l hwf hrel => ⟨hwf, hrel⟩
  | cons op rest ih =>
    intro m l hwf hrel
    obtain ⟨hwf1, hrel1⟩ := mapModelStep_rel hwf hrel op
    have := ih (mapModelStep (m, l) op).1 (mapModelStep (m, l) op).2 hwf1 hrel1
    simpa using this

/-- C8: after any sequence of sparse-map operations (including failing
ones), the parallel key and value vectors have equal logical lengths, and
for every key `find_value` returns exactly the value paired with it at its
most recent successful insert or overwrite (and nothing after an erase) —
in particular an insert that fails while recording the key has rolled back
the value push. -/
theorem claim_C8 (M : Nat) (ops : List MOp) (k : Nat) :
    (mapRun M ops).1.values.length = (mapRun M ops).1.keys.size ∧
    (mapRun M ops).1.find_value ixId k = specLookup (mapRun M ops).2 k := by
  have hbase : ∀ k0, (SparseMap.mk0 Nat M).find_value ixId k0 = specLookup [] k0 := by
    intro k0
    rw [SparseMap.find_value_not_has]
    · rfl
    · rw [SparseSet.has]
      simp [SparseMap.mk0, SparseSet.mk0]
  obtain ⟨hwf, hrel⟩ := mapFold_rel ops (SparseMap.mk0 Nat M) []
    (MapWF_mk0 Nat ixId M) hbase
  exact ⟨hwf.2, hrel k⟩

/-! ### Registry-level lemmas -/

/-- Liveness is membership of the full id in the live region. -/
theorem Registry.alive_iff {r : Registry} (hinv : RInv r) (id : Nat) :
    r.is_entity_alive_impl_ id = true ↔ id ∈ r.liveIds := by
  rw [Registry.is_entity_alive_impl_]
  exact hinv.wfLive.has_iff id

/-- Two distinct live ids have distinct index parts (invariant E1). -/
theorem RInv.live_ix_ne {r : Registry} (hinv : RInv r) {v w : Nat}
    (hv : v ∈ r.liveIds) (hw : w ∈ r.liveIds) (hne : v ≠ w) :
    entity_id_index v ≠ entity_id_index w :=
  hinv.wfLive.ix_inj hv hw hne

/-- The default-constructed registry satisfies the invariant. -/
theorem RInv_init (M : Nat) : RInv (Registry.init M) := by
  constructor
  · exact SSWF_mk0 ixE M
  · intro v hv
    simp [Registry.liveIds, Registry.init, SparseSet.mk0, SparseSet.toL] at hv
  · intro f hf
    simp [Registry.init] at hf
  · simp [Registry.init]
  · intro f hf
    simp [Registry.init] at hf
  · simp [Registry.init, entity_id_index_mask, entity_id_index_bits]
  · exact ⟨SSWF_mk0 ixId M, rfl⟩
  · intro st hst
    simp [Registry.init, SparseMap.mk0] at hst

/-- A storage returned by `find_storage_` is one of the owned storages. -/
theorem Registry.find_storage_mem {r : Registry} {fam : Nat} {st : Storage}
    (h : r.find_storage_ fam = some st) : st ∈ r.storages.values := by
  rw [Registry.find_storage_, SparseMap.find_value] at h
  rcases hf : r.storages.keys.find_index ixId fam with _ | i
  · rw [hf] at h; cases h
  · rw [hf] at h
    simp only at h
    exact List.get?_mem h

/-- In-bounds `getElem` agrees with `getD`. -/
theorem getElem_eq_getD {α : Type} (l : List α) (i : Nat) (d : α)
    (h : i < l.length) : l[i] = l.getD i d := by
  rw [List.getD_eq_getElem?_getD, List.getElem?_eq_getElem h]
  rfl

/-- Setting a slot leaves the rest of the list after it untouched. -/
theorem drop_succ_set {α : Type} (l : List α) (t : Nat) (x : α) :
    (l.set t x).drop (t + 1) = l.drop (t + 1) := by
  induction l generalizing t with
  | nil => rfl
  | cons y ys ih =>
    cases t with
    | zero => rfl
    | succ u => exact ih u

/-- Taking one past a freshly set slot splits off the new value. -/
theorem take_succ_set {α : Type} (l : List α) (t : Nat) (x : α)
    (h : t < l.length) : (l.set t x).take (t + 1) = l.take t ++ [x] := by
  induction l generalizing t with
  | nil => simp at h
  | cons y ys ih =>
    cases t with
    | zero => rfl
    | succ u =>
      simp only [List.set_cons_succ, List.take_succ_cons]
      rw [ih u (by simpa using h)]
      rfl

/-- The loop of `remove_all_components_impl_` from position `t` onward
erases the entity from exactly the storages at positions `t..size`, in
place. -/
theorem remAll_fold {ks : SparseSet} (id : Nat) (hwf : SSWF ixId ks) :
    ∀ (n t : Nat) (vs : List Storage) (c : Nat), ks.size ≤ t + n →
    vs.length = ks.size →
    ((ks.toL.drop t).foldl (remAllStep ks id) (vs, c)).1 =
      vs.take t ++ (vs.drop t).map (fun st => (st.unordered_erase ixE id).1) := by
  intro n
  induction n with
  | zero =>
    intro t vs c hle hlen
    have hnil : ks.toL.drop t = [] :=
      List.drop_eq_nil_of_le (by rw [hwf.toL_length]; omega)
    rw [hnil, List.foldl_nil]
    rw [List.take_of_length_le (by omega), List.drop_eq_nil_of_le (by omega)]
    simp
  | succ n ih =>
    intro t vs c hle hlen
    by_cases ht : ks.size ≤ t
    · have hnil : ks.toL.drop t = [] :=
        List.drop_eq_nil_of_le (by rw [hwf.toL_length]; omega)
      rw [hnil, List.foldl_nil]
      rw [List.take_of_length_le (by omega), List.drop_eq_nil_of_le (by omega)]
      simp
    · have htlt : t < ks.size := by omega
      have htoL : t < ks.toL.length := by rw [hwf.toL_length]; omega
      have hhead : ks.toL.drop t = ks.dense.getD t 0 :: ks.toL.drop (t + 1) := by
        rw [List.drop_eq_getElem_cons htoL]
        congr 1
        rw [getElem_eq_getD _ _ 0 htoL]
        rw [SparseSet.toL, getD_take _ htlt]
      have hhas : ks.has ixId (ks.dense.getD t 0) = true := by
        rw [hwf.has_iff]
        exact (hwf.mem_toL _).mpr ⟨t, htlt, rfl⟩
      have hfi : ks.find_index ixId (ks.dense.getD t 0) = some t := by
        rw [SparseSet.find_index, if_pos hhas, hwf.hlink t htlt]
      have hget : vs.get? t = some (vs.getD t default) :=
        get?_eq_getD vs t default (by omega)
      rcases he : (vs.getD t default).unordered_erase ixE id with ⟨st2, b⟩
      have hstep : remAllStep ks id (vs, c) (ks.dense.getD t 0) =
          (vs.set t st2, if b then c + 1 else c) := by
        rw [remAllStep, hfi]
        simp only [hget, he]
      rw [hhead, List.foldl_cons, hstep]
      rw [ih (t + 1) (vs.set t st2) (if b then c + 1 else c) (by omega)
        (by rw [List.length_set]; exact hlen)]
      rw [take_succ_set vs t st2 (by omega), drop_succ_set]
      rw [List.append_assoc, List.singleton_append]
      congr 1
      have hdropt : vs.drop t = vs.getD t default :: vs.drop (t + 1) := by
        rw [List.drop_eq_getElem_cons (by omega : t < vs.length)]
        congr 1
        exact getElem_eq_getD vs t default (by omega)
      rw [hdropt, List.map_cons, he]

/-- `remove_all_components_impl_` is a no-op on a handle that is not
alive; on a live one it erases the entity's entry from every storage in
place and touches nothing else. -/
theorem Registry.removeAll_spec {r : Registry} (hinv : RInv r) (id : Nat) :
    (r.is_entity_alive_impl_ id = false → r.remove_all_components_impl_ id = (r, 0)) ∧
    (r.is_entity_alive_impl_ id = true →
      (r.remove_all_components_impl_ id).1.storages.keys = r.storages.keys ∧
      (r.remove_all_components_impl_ id).1.storages.values =
        r.storages.values.map (fun st => (st.unordered_erase ixE id).1) ∧
      (r.remove_all_components_impl_ id).1.entity_ids = r.entity_ids ∧
      (r.remove_all_components_impl_ id).1.free_entity_ids = r.free_entity_ids ∧
      (r.remove_all_components_impl_ id).1.last_entity_id = r.last_entity_id ∧
      (r.remove_all_components_impl_ id).1.budget = r.budget) := by
  constructor
  · intro hdead
    rw [Registry.remove_all_components_impl_, if_neg (by simp [hdead])]
  · intro halive
    rw [Registry.remove_all_components_impl_, if_pos halive]
    refine ⟨rfl, ?_, rfl, rfl, rfl, rfl⟩
    have := @remAll_fold r.storages.keys id hinv.wfTable.1
      r.storages.keys.size 0 r.storages.values 0 (by omega) hinv.wfTable.2
    simp only [List.drop_zero, List.take_nil, List.take_zero, List.nil_append] at this
    exact this

/-- `destroy_entity` on a handle that is not alive removes nothing and
reports `false`; on a live one it removes the components at the entity's
index, erases the id from the live set and pushes it on the free list. -/
theorem Registry.destroy_spec {r : Registry} (hinv : RInv r) (id : Nat) :
    (r.is_entity_alive_impl_ id = false → r.destroyEntity id = (r, false)) ∧
    (r.is_entity_alive_impl_ id = true →
      (r.destroyEntity id).2 = true ∧
      (∀ w, w ∈ (r.destroyEntity id).1.liveIds ↔ (w ∈ r.liveIds ∧ w ≠ id)) ∧
      (r.destroyEntity id).1.free_entity_ids = id :: r.free_entity_ids ∧
      (r.destroyEntity id).1.last_entity_id = r.last_entity_id ∧
      (r.destroyEntity id).1.budget = r.budget ∧
      (r.destroyEntity id).1.storages.keys = r.storages.keys ∧
      (r.destroyEntity id).1.storages.values =
        r.storages.values.map (fun st => (st.unordered_erase ixE id).1) ∧
      SSWF ixE (r.destroyEntity id).1.entity_ids ∧
      (r.destroyEntity id).1.entity_ids.maxSize = r.entity_ids.maxSize) := by
  constructor
  · intro hdead
    have hra := (Registry.removeAll_spec hinv id).1 hdead
    have hdead' : r.entity_ids.has ixE id = false := hdead
    rw [Registry.destroyEntity, hra]
    rw [Registry.eraseLive, SparseSet.erase_not_has hdead']
  · intro halive
    have hhase : r.entity_ids.has ixE id = true := halive
    obtain ⟨hkeys, hvals, hent, hfree, hlast, hbud⟩ :=
      (Registry.removeAll_spec hinv id).2 halive
    obtain ⟨htrue, hswf, hsz, hcap, hmax, hmem, hpos⟩ :=
      SparseSet.erase_spec hinv.wfLive hhase
    have hpair : r.entity_ids.unordered_erase ixE id =
        ((r.entity_ids.unordered_erase ixE id).1, true) := by
      rcases hp : r.entity_ids.unordered_erase ixE id with ⟨s', b⟩
      rw [hp] at htrue
      simp only at htrue
      rw [htrue]
    rw [Registry.destroyEntity, Registry.eraseLive, hent, hpair]
    refine ⟨rfl, ?_, ?_, ?_, ?_, ?_, ?_, hswf, hmax⟩
    · intro w
      exact hmem w
    · rw [hfree]
    · rw [hlast]
    · rw [hbud]
    · rw [hkeys]
    · rw [hvals]

/-- The only error `insert` raises is capacity exhaustion. -/
theorem SparseSet.insert_err_kind {ix : Nat → Nat} {s t : SparseSet} {v : Nat}
    {e : Err} (h : s.insert ix v = (t, .error e)) : e = .capacityExhausted := by
  simp only [SparseSet.insert] at h
  split at h
  · cases h
  · split at h
    · next e1 heq =>
      cases h
      split at heq
      · rw [SparseSet.new_capacity_for_] at heq
        split at heq
        · cases heq; rfl
        · split at heq <;> cases heq
      · cases heq
    · cases h

/-- Successful `create_entity` from a non-empty free list: the most
recently freed id is popped, its generation is bumped, and the composed id
joins the live set. -/
theorem Registry.create_ok_free {r : Registry} (hinv : RInv r) {f : Nat}
    {rest : List Nat} (hf : r.free_entity_ids = f :: rest)
    (hM : entity_id_index f < r.entity_ids.maxSize) :
    ∃ s, r.createEntity =
      ({ r with entity_ids := s, free_entity_ids := rest },
        .ok (entity_id_join (entity_id_index f) (entity_id_version f + 1))) ∧
      SSWF ixE s ∧
      s.toL = r.liveIds ++
        [entity_id_join (entity_id_index f) (entity_id_version f + 1)] ∧
      s.maxSize = r.entity_ids.maxSize := by
  set nid := entity_id_join (entity_id_index f) (entity_id_version f + 1) with hnid
  have hixnid : ixE nid = entity_id_index f := by
    rw [hnid]
    show entity_id_index _ = _
    exact entity_id_index_join _ _ (entity_id_index_lt f)
  have hfmem : f ∈ r.free_entity_ids := by rw [hf]; exact List.mem_cons_self f rest
  have hfresh : ∀ w ∈ r.entity_ids.toL, ixE w ≠ ixE nid := by
    intro w hw hc
    rw [hixnid] at hc
    exact hinv.freeLiveDisj f hfmem w hw hc.symm
  have hnot := hinv.wfLive.not_has_of_fresh hfresh
  obtain ⟨s, hins⟩ := SparseSet.insert_ok_of_lt hnot (by rw [hixnid]; exact hM)
  obtain ⟨hwfs, htoL, _, hmax, _⟩ := SparseSet.insert_ok_spec hinv.wfLive hfresh hins
  refine ⟨s, ?_, hwfs, htoL, hmax⟩
  rw [Registry.createEntity]
  simp only [hf, hins]

/-- Successful `create_entity` from a fresh index: `last_entity_id` is
bumped and the bare index (generation zero) joins the live set. -/
theorem Registry.create_ok_fresh {r : Registry} (hinv : RInv r)
    (hf : r.free_entity_ids = []) (hlast : r.last_entity_id < entity_id_index_mask)
    (hM : r.last_entity_id + 1 < r.entity_ids.maxSize) :
    ∃ s, r.createEntity =
      ({ r with last_entity_id := r.last_entity_id + 1, entity_ids := s },
        .ok (r.last_entity_id + 1)) ∧
      SSWF ixE s ∧
      s.toL = r.liveIds ++ [r.last_entity_id + 1] ∧
      s.maxSize = r.entity_ids.maxSize := by
  have hixnid : ixE (r.last_entity_id + 1) = r.last_entity_id + 1 := by
    show entity_id_index _ = _
    exact entity_id_index_self (by
      have := hlast
      omega)
  have hfresh : ∀ w ∈ r.entity_ids.toL, ixE w ≠ ixE (r.last_entity_id + 1) := by
    intro w hw hc
    rw [hixnid] at hc
    have := hinv.liveLast w hw
    show False
    have : entity_id_index w = r.last_entity_id + 1 := hc
    omega
  have hnot := hinv.wfLive.not_has_of_fresh hfresh
  obtain ⟨s, hins⟩ := SparseSet.insert_ok_of_lt hnot (by rw [hixnid]; exact hM)
  obtain ⟨hwfs, htoL, _, hmax, _⟩ := SparseSet.insert_ok_spec hinv.wfLive hfresh hins
  refine ⟨s, ?_, hwfs, htoL, hmax⟩
  rw [Registry.createEntity]
  simp only [hf, hins, if_pos hlast]

/-- `create_entity` at index-space saturation fails and changes nothing. -/
theorem Registry.create_exhausted {r : Registry}
    (hf : r.free_entity_ids = []) (hlast : ¬ r.last_entity_id < entity_id_index_mask) :
    r.createEntity = (r, .error .indexSpaceExhausted) := by
  rw [Registry.createEntity]
  simp only [hf, if_neg hlast]

/-- A failing `create_entity` leaves the free list, live set, storages and
budget untouched; `last_entity_id` is unchanged except in the fresh-index
branch, where it has already been incremented; on index-space exhaustion
the whole state is untouched. -/
theorem Registry.create_err {r r' : Registry} {e : Err}
    (h : r.createEntity = (r', .error e)) :
    r'.free_entity_ids = r.free_entity_ids ∧ r'.entity_ids = r.entity_ids ∧
    r'.storages = r.storages ∧ r'.budget = r.budget ∧
    (r'.last_entity_id = r.last_entity_id ∨
      (r.free_entity_ids = [] ∧ r'.last_entity_id = r.last_entity_id + 1)) ∧
    (e = .indexSpaceExhausted → r' = r) := by
  rw [Registry.createEntity] at h
  rcases hf : r.free_entity_ids with _ | ⟨f, rest⟩ <;> rw [hf] at h
  case cons =>
    simp only at h
    rcases hi : r.entity_ids.insert ixE
        (entity_id_join (entity_id_index f) (entity_id_version f + 1)) with ⟨s, res⟩
    rw [hi] at h
    match res, h with
    | .error e1, h =>
      simp only [Prod.mk.injEq, Except.error.injEq] at h
      obtain ⟨h1, h2⟩ := h
      obtain ⟨hseq, _⟩ := SparseSet.insert_err_spec hi
      have hkind := SparseSet.insert_err_kind hi
      have hr' : r' = r := by
        rw [← h1, hseq, ← hf]
      rw [hr']
      exact ⟨hf, rfl, rfl, rfl, Or.inl rfl, fun _ => rfl⟩
  case nil =>
    simp only at h
    split at h
    · rcases hi : r.entity_ids.insert ixE (r.last_entity_id + 1) with ⟨s, res⟩
      rw [hi] at h
      match res, h with
      | .error e1, h =>
        simp only [Prod.mk.injEq, Except.error.injEq] at h
        obtain ⟨h1, h2⟩ := h
        obtain ⟨hseq, _⟩ := SparseSet.insert_err_spec hi
        have hkind := SparseSet.insert_err_kind hi
        rw [← h1, hseq]
        refine ⟨rfl, rfl, rfl, rfl, Or.inr ⟨rfl, rfl⟩, ?_⟩
        intro hcontra
        rw [← h2, hkind] at hcontra
        cases hcontra
    · simp only [Prod.mk.injEq, Except.error.injEq] at h
      obtain ⟨h1, _⟩ := h
      rw [← h1]
      exact ⟨hf, rfl, rfl, rfl, Or.inl rfl, fun _ => rfl⟩

/-- `ixE` is the index part. -/
theorem ixE_def (v : Nat) : ixE v = entity_id_index v := rfl

/-- Growing the live set preserves the per-storage key condition. -/
theorem RInv.storage_grow {r : Registry} (hinv : RInv r) (L : List Nat)
    (hsub : ∀ k ∈ r.liveIds, k ∈ L) :
    ∀ st ∈ r.storages.values, MapWF ixE st ∧ ∀ k ∈ st.keys.toL, k ∈ L := by
  intro st hst
  exact ⟨(hinv.wfStorage st hst).1,
    fun k hk => hsub k ((hinv.wfStorage st hst).2 k hk)⟩

/-- The outcome analysis of `create_entity` on an invariant-satisfying
registry: the invariant is preserved in every branch (including failing
ones), the storages are untouched, `last_entity_id` never decreases, and
the live set either is unchanged (failure) or grows by exactly the new id
(reuse of the most recently freed index with a bumped generation, or a
fresh index with generation zero). -/
theorem Registry.create_analysis {r : Registry} (hinv : RInv r) :
    RInv (r.createEntity).1 ∧
    r.last_entity_id ≤ (r.createEntity).1.last_entity_id ∧
    (r.createEntity).1.storages = r.storages ∧
    (r.createEntity).1.budget = r.budget ∧
    (((r.createEntity).1.liveIds = r.liveIds ∧
      (r.createEntity).1.free_entity_ids = r.free_entity_ids ∧
      (∃ e, (r.createEntity).2 = .error e)) ∨
     (∃ f rest, r.free_entity_ids = f :: rest ∧
       (r.createEntity).2 =
         .ok (entity_id_join (entity_id_index f) (entity_id_version f + 1)) ∧
       (r.createEntity).1.liveIds = r.liveIds ++
         [entity_id_join (entity_id_index f) (entity_id_version f + 1)] ∧
       (r.createEntity).1.free_entity_ids = rest ∧
       (r.createEntity).1.last_entity_id = r.last_entity_id) ∨
     (r.free_entity_ids = [] ∧
       (r.createEntity).2 = .ok (r.last_entity_id + 1) ∧
       (r.createEntity).1.liveIds = r.liveIds ++ [r.last_entity_id + 1] ∧
       (r.createEntity).1.free_entity_ids = [] ∧
       (r.createEntity).1.last_entity_id = r.last_entity_id + 1)) := by
  rcases hf : r.free_entity_ids with _ | ⟨f, rest⟩
  case cons =>
    have hnid : entity_id_index
        (entity_id_join (entity_id_index f) (entity_id_version f + 1)) =
        entity_id_index f :=
      entity_id_index_join _ _ (entity_id_index_lt f)
    set nid := entity_id_join (entity_id_index f) (entity_id_version f + 1) with hniddef
    have hfmem : f ∈ r.free_entity_ids := by rw [hf]; exact List.mem_cons_self f rest
    have hfresh : ∀ w ∈ r.entity_ids.toL, ixE w ≠ ixE nid := by
      intro w hw hc
      rw [ixE_def, ixE_def, hnid] at hc
      exact hinv.freeLiveDisj f hfmem w hw hc.symm
    have hnot := hinv.wfLive.not_has_of_fresh hfresh
    rcases hi : r.entity_ids.insert ixE nid with ⟨s, res⟩
    match res, hi with
    | .ok false, hi =>
      exact absurd (SparseSet.insert_false_spec hi).2 (by simp [hnot])
    | .ok true, hi =>
      obtain ⟨hwfs, htoL, _, hmax, _⟩ := SparseSet.insert_ok_spec hinv.wfLive hfresh hi
      have hce : r.createEntity =
          ({ r with entity_ids := s, free_entity_ids := rest }, .ok nid) := by
        rw [Registry.createEntity]
        simp only [hf, hi]
      have hfnodup := hinv.freeNodup
      rw [hf, List.map_cons, List.nodup_cons] at hfnodup
      have hlive' : ({ r with entity_ids := s, free_entity_ids := rest } :
          Registry).liveIds = r.liveIds ++ [nid] := htoL
      have hinv' : RInv { r with entity_ids := s, free_entity_ids := rest } := by
        constructor
        · exact hwfs
        · intro v hv
          rw [hlive'] at hv
          rcases List.mem_append.mp hv with h1 | h1
          · exact hinv.liveLast v h1
          · simp only [List.mem_singleton] at h1
            rw [h1]
            show entity_id_index nid ≤ r.last_entity_id
            rw [hnid]
            exact hinv.freeLast f hfmem
        · intro g hg
          exact hinv.freeLast g (by rw [hf]; exact List.mem_cons_of_mem f hg)
        · exact hfnodup.2
        · intro g hg v hv
          rw [hlive'] at hv
          rcases List.mem_append.mp hv with h1 | h1
          · exact hinv.freeLiveDisj g
              (by rw [hf]; exact List.mem_cons_of_mem f hg) v h1
          · simp only [List.mem_singleton] at h1
            rw [h1]
            show entity_id_index g ≠ entity_id_index nid
            rw [hnid]
            intro hc
            exact hfnodup.1 (hc ▸ List.mem_map_of_mem entity_id_index hg)
        · exact hinv.lastLe
        · exact hinv.wfTable
        · intro st hst
          refine ⟨(hinv.wfStorage st hst).1, ?_⟩
          intro k hk
          show k ∈ s.toL
          rw [htoL]
          exact List.mem_append.mpr (Or.inl ((hinv.wfStorage st hst).2 k hk))
      rw [hce]
      exact ⟨hinv', Nat.le_refl _, rfl, rfl,
        Or.inr (Or.inl ⟨f, rest, rfl, rfl, hlive', rfl, rfl⟩)⟩
    | .error e, hi =>
      obtain ⟨hseq, _⟩ := SparseSet.insert_err_spec hi
      have hce : r.createEntity = ({ r with entity_ids := s }, .error e) := by
        rw [Registry.createEntity]
        simp only [hf, hi]
      rw [hce, hseq]
      have hr : ({ r with entity_ids := r.entity_ids } : Registry) = r := rfl
      rw [hr]
      exact ⟨hinv, Nat.le_refl _, rfl, rfl, Or.inl ⟨rfl, hf, ⟨e, rfl⟩⟩⟩
  case nil =>
    by_cases hlast : r.last_entity_id < entity_id_index_mask
    · have hixnid : entity_id_index (r.last_entity_id + 1) = r.last_entity_id + 1 :=
        entity_id_index_self (by omega)
      have hfresh : ∀ w ∈ r.entity_ids.toL, ixE w ≠ ixE (r.last_entity_id + 1) := by
        intro w hw hc
        rw [ixE_def, ixE_def, hixnid] at hc
        have := hinv.liveLast w hw
        omega
      have hnot := hinv.wfLive.not_has_of_fresh hfresh
      rcases hi : r.entity_ids.insert ixE (r.last_entity_id + 1) with ⟨s, res⟩
      match res, hi with
      | .ok false, hi =>
        exact absurd (SparseSet.insert_false_spec hi).2 (by simp [hnot])
      | .ok true, hi =>
        obtain ⟨hwfs, htoL, _, hmax, _⟩ :=
          SparseSet.insert_ok_spec hinv.wfLive hfresh hi
        have hce : r.createEntity =
            ({ r with last_entity_id := r.last_entity_id + 1, entity_ids := s },
              .ok (r.last_entity_id + 1)) := by
          rw [Registry.createEntity]
          simp only [hf, hi, if_pos hlast]
        have hlive' : ({ r with last_entity_id := r.last_entity_id + 1, entity_ids := s } : Registry).liveIds = r.liveIds ++ [r.last_entity_id + 1] := htoL
        have hinv' : RInv { r with last_entity_id := r.last_entity_id + 1, entity_ids := s } := by
          constructor
          · exact hwfs
          · intro v hv
            rw [hlive'] at hv
            rcases List.mem_append.mp hv with h1 | h1
            · have := hinv.liveLast v h1
              show entity_id_index v ≤ r.last_entity_id + 1
              omega
            · simp only [List.mem_singleton] at h1
              rw [h1]
              show entity_id_index (r.last_entity_id + 1) ≤ r.last_entity_id + 1
              rw [hixnid]
          · intro g hg
            have hg' : g ∈ r.free_entity_ids := hg
            rw [hf] at hg'
            cases hg'
          · show (r.free_entity_ids.map entity_id_index).Nodup
            rw [hf]
            simp
          · intro g hg
            have hg' : g ∈ r.free_entity_ids := hg
            rw [hf] at hg'
            cases hg'
          · show r.last_entity_id + 1 ≤ entity_id_index_mask
            omega
          · exact hinv.wfTable
          · intro st hst
            refine ⟨(hinv.wfStorage st hst).1, ?_⟩
            intro k hk
            show k ∈ s.toL
            rw [htoL]
            exact List.mem_append.mpr (Or.inl ((hinv.wfStorage st hst).2 k hk))
        rw [hce]
        exact ⟨hinv', by simp, rfl, rfl,
          Or.inr (Or.inr ⟨rfl, rfl, hlive', hf, rfl⟩)⟩
      | .error e, hi =>
        obtain ⟨hseq, _⟩ := SparseSet.insert_err_spec hi
        have hce : r.createEntity =
            ({ r with last_entity_id := r.last_entity_id + 1, entity_ids := s },
              .error e) := by
          rw [Registry.createEntity]
          simp only [hf, hi, if_pos hlast]
        rw [hce, hseq]
        have hinv' : RInv { r with last_entity_id := r.last_entity_id + 1, entity_ids := r.entity_ids } := by
          constructor
          · exact hinv.wfLive
          · intro v hv
            have := hinv.liveLast v hv
            show entity_id_index v ≤ r.last_entity_id + 1
            omega
          · intro g hg
            have hg' : g ∈ r.free_entity_ids := hg
            rw [hf] at hg'
            cases hg'
          · show (r.free_entity_ids.map entity_id_index).Nodup
            rw [hf]
            simp
          · intro g hg
            have hg' : g ∈ r.free_entity_ids := hg
            rw [hf] at hg'
            cases hg'
          · show r.last_entity_id + 1 ≤ entity_id_index_mask
            omega
          · exact hinv.wfTable
          · exact fun st hst => hinv.wfStorage st hst
        exact ⟨hinv', by simp, rfl, rfl, Or.inl ⟨rfl, hf, ⟨e, rfl⟩⟩⟩
    · rw [Registry.create_exhausted hf hlast]
      exact ⟨hinv, Nat.le_refl _, rfl, rfl,
        Or.inl ⟨rfl, hf, ⟨Err.indexSpaceExhausted, rfl⟩⟩⟩

/-- Replacing only the storage table preserves the registry invariant as
long as the new table is well formed with keys drawn from the live ids. -/
theorem RInv.with_storages {r : Registry} (hinv : RInv r) (m : SparseMap Storage)
    (hwf : MapWF ixId m)
    (hst : ∀ st ∈ m.values, MapWF ixE st ∧ ∀ k ∈ st.keys.toL, k ∈ r.liveIds) :
    RInv { r with storages := m } := by
  constructor
  · exact hinv.wfLive
  · exact fun v hv => hinv.liveLast v hv
  · exact fun f hf => hinv.freeLast f hf
  · exact hinv.freeNodup
  · exact fun f hf v hv => hinv.freeLiveDisj f hf v hv
  · exact hinv.lastLe
  · exact hwf
  · exact hst

/-- `destroy_entity` preserves the registry invariant. -/
theorem Registry.destroy_preserves {r : Registry} (hinv : RInv r) (id : Nat) :
    RInv (r.destroyEntity id).1 := by
  cases halive : r.is_entity_alive_impl_ id
  · rw [(Registry.destroy_spec hinv id).1 halive]
    exact hinv
  · obtain ⟨_, hmem, hfree, hlast, _, hkeys, hvals, hswf, _⟩ :=
      (Registry.destroy_spec hinv id).2 halive
    have hidlive : id ∈ r.liveIds := (Registry.alive_iff hinv id).mp halive
    constructor
    · exact hswf
    · intro w hw
      obtain ⟨hw1, _⟩ := (hmem w).mp hw
      rw [hlast]
      exact hinv.liveLast w hw1
    · intro g hg
      rw [hfree] at hg
      rw [hlast]
      rcases List.mem_cons.mp hg with h1 | h1
      · rw [h1]
        exact hinv.liveLast id hidlive
      · exact hinv.freeLast g h1
    · rw [hfree, List.map_cons, List.nodup_cons]
      constructor
      · intro hc
        rcases List.mem_map.mp hc with ⟨g, hg, hge⟩
        exact hinv.freeLiveDisj g hg id hidlive hge
      · exact hinv.freeNodup
    · intro g hg w hw
      rw [hfree] at hg
      obtain ⟨hw1, hw2⟩ := (hmem w).mp hw
      rcases List.mem_cons.mp hg with h1 | h1
      · rw [h1]
        exact hinv.live_ix_ne hidlive hw1 (fun hc => hw2 hc.symm)
      · exact hinv.freeLiveDisj g h1 w hw1
    · rw [hlast]
      exact hinv.lastLe
    · constructor
      · rw [hkeys]
        exact hinv.wfTable.1
      · rw [hvals, hkeys, List.length_map]
        exact hinv.wfTable.2
    · intro st hst
      rw [hvals] at hst
      rcases List.mem_map.mp hst with ⟨st0, hst0, hphi⟩
      obtain ⟨hwf0, hsub0⟩ := hinv.wfStorage st0 hst0
      cases hh : st0.keys.has ixE id
      · rw [← hphi, SparseMap.map_erase_not_has hh]
        refine ⟨hwf0, ?_⟩
        intro k hk
        rw [hmem k]
        refine ⟨hsub0 k hk, ?_⟩
        intro hkid
        have hk' : id ∈ st0.keys.toL := hkid ▸ hk
        rw [← hwf0.1.has_iff id, hh] at hk'
        cases hk'
      · obtain ⟨_, hwf1, _, hmem1, _, _⟩ := SparseMap.map_erase_spec hwf0 hh
        rw [← hphi]
        refine ⟨hwf1, ?_⟩
        intro k hk
        obtain ⟨hk1, hk2⟩ := (hmem1 k).mp hk
        rw [hmem k]
        exact ⟨hsub0 k hk1, hk2⟩

/-- Decomposition of a successful `find_index`. -/
theorem SparseSet.find_index_some {ix : Nat → Nat} {s : SparseSet} {v i : Nat}
    (h : s.find_index ix v = some i) :
    s.has ix v = true ∧ i = s.sparse.getD (ix v) 0 := by
  rw [SparseSet.find_index] at h
  split at h
  · next hh => exact ⟨hh, (Option.some.injEq _ _ ▸ h).symm⟩
  · cases h

/-- A failed `find_index` means the value is absent. -/
theorem SparseSet.find_index_none {ix : Nat → Nat} {s : SparseSet} {v : Nat}
    (h : s.find_index ix v = none) : s.has ix v = false := by
  rw [SparseSet.find_index] at h
  split at h
  · cases h
  · next hh => simpa using hh

/-- `get?` succeeding implies the position is in bounds. -/
theorem get?_some_lt {α : Type} {l : List α} {i : Nat} {a : α}
    (h : l.get? i = some a) : i < l.length := by
  rcases List.get?_eq_some.mp h with ⟨hlt, _⟩
  exact hlt

/-- Component-storage `assign` keeps the storage well formed, keeps its
keys inside any list containing the live keys plus the assigned id, and on
success makes the id map to the new value. -/
theorem storage_assign_cond {st st2 : Storage} {id v : Nat}
    {res : Except Err Unit} (L : List Nat) (hwf : MapWF ixE st)
    (hsub : ∀ k ∈ st.keys.toL, k ∈ L) (hidL : id ∈ L)
    (hdisj : ∀ w ∈ st.keys.toL, w ≠ id → entity_id_index w ≠ entity_id_index id)
    (h : st.assign ixE id v = (st2, res)) :
    MapWF ixE st2 ∧ (∀ k ∈ st2.keys.toL, k ∈ L) ∧
    (res = .ok () → st2.find_value ixE id = some v) := by
  cases hh : st.keys.has ixE id
  · rcases SparseMap.assign_absent hh h with ⟨e, hres, hemp⟩ | ⟨hres, hemp⟩
    · obtain ⟨hst2, _⟩ := SparseMap.emplace_err hemp
      rw [hst2]
      refine ⟨hwf, hsub, ?_⟩
      intro hc
      rw [hres] at hc
      cases hc
    · have hfresh : ∀ w ∈ st.keys.toL, ixE w ≠ ixE id := by
        intro w hw hc
        by_cases hwid : w = id
        · rw [hwid] at hw
          rw [← hwf.1.has_iff id, hh] at hw
          cases hw
        · exact hdisj w hw hwid hc
      obtain ⟨hwf2, htoL2, _, _, _, hself, _⟩ := SparseMap.emplace_ok hwf hfresh hemp
      refine ⟨hwf2, ?_, fun _ => hself⟩
      intro k hk
      rw [htoL2] at hk
      rcases List.mem_append.mp hk with h1 | h1
      · exact hsub k h1
      · simp only [List.mem_singleton] at h1
        rw [h1]
        exact hidL
  · obtain ⟨hwf2, hkeys2, hres, hself, _⟩ := SparseMap.assign_present_spec hwf hh
    have h1 : (st.assign ixE id v).1 = st2 := by rw [h]
    have h2 : (st.assign ixE id v).2 = res := by rw [h]
    rw [h1] at hwf2 hkeys2 hself
    refine ⟨hwf2, ?_, fun _ => hself⟩
    intro k hk
    apply hsub k
    have : st2.keys.toL = st.keys.toL := by rw [hkeys2]
    rw [← this]
    exact hk

/-- The effect of `assign_component`: `false` and no change on a handle
that is not alive; otherwise the entity-id state is untouched, the
invariant is preserved, and on success the component is found with the
assigned value. -/
theorem Registry.assign_spec {r : Registry} (hinv : RInv r) (fam id v : Nat) :
    RInv (r.assign_component fam id v).1 ∧
    (r.assign_component fam id v).1.entity_ids = r.entity_ids ∧
    (r.assign_component fam id v).1.free_entity_ids = r.free_entity_ids ∧
    (r.assign_component fam id v).1.last_entity_id = r.last_entity_id ∧
    (r.assign_component fam id v).1.budget = r.budget ∧
    (r.is_entity_alive_impl_ id = false →
      r.assign_component fam id v = (r, .ok false)) ∧
    ((r.assign_component fam id v).2 = .ok true →
      (r.assign_component fam id v).1.find_component fam id = some v) := by
  cases halive : r.is_entity_alive_impl_ id
  · have hr : r.assign_component fam id v = (r, .ok false) := by
      rw [Registry.assign_component, if_neg (by simp [halive])]
    rw [hr]
    refine ⟨hinv, rfl, rfl, rfl, rfl, fun _ => rfl, ?_⟩
    intro hc
    simp at hc
  · have hidlive := (Registry.alive_iff hinv id).mp halive
    have hdisj : ∀ (st : Storage), st ∈ r.storages.values →
        ∀ w ∈ st.keys.toL, w ≠ id → entity_id_index w ≠ entity_id_index id := by
      intro st hst w hw hwid
      exact hinv.live_ix_ne ((hinv.wfStorage st hst).2 w hw) hidlive hwid
    rcases hfi : r.storages.keys.find_index ixId fam with _ | i
    case some =>
      obtain ⟨hhasf, hieq⟩ := SparseSet.find_index_some hfi
      have hilt : i < r.storages.keys.size := by
        rw [SparseSet.has, decide_eq_true_iff] at hhasf
        rw [hieq]
        exact hhasf.2.1
      have hget : r.storages.values.get? i =
          some (r.storages.values.getD i (SparseMap.mk0 Nat 0)) :=
        get?_eq_getD _ _ _ (by rw [hinv.wfTable.2]; exact hilt)
      set st := r.storages.values.getD i (SparseMap.mk0 Nat 0) with hstdef
      have hstmem : st ∈ r.storages.values := List.get?_mem hget
      rcases hasg : st.assign ixE id v with ⟨st2, res⟩
      have hr : r.assign_component fam id v =
          ({ r with storages := { keys := r.storages.keys, values := r.storages.values.set i st2 } }, res.map (fun _ => true)) := by
        rw [Registry.assign_component, if_pos halive]
        simp only [hfi, hget, hasg]
      obtain ⟨hwf2, hsub2, hfind2⟩ := storage_assign_cond r.liveIds
        (hinv.wfStorage st hstmem).1 (hinv.wfStorage st hstmem).2 hidlive
        (hdisj st hstmem) hasg
      rw [hr]
      refine ⟨?_, rfl, rfl, rfl, rfl, ?_, ?_⟩
      · apply hinv.with_storages
        · exact ⟨hinv.wfTable.1, by rw [List.length_set]; exact hinv.wfTable.2⟩
        · intro st' hst'
          rcases mem_of_mem_set hst' with h1 | h1
          · rw [h1]
            exact ⟨hwf2, hsub2⟩
          · exact hinv.wfStorage st' h1
      · intro hc
        cases hc
      · intro hok
        have hres : res = .ok () := by
          rcases res with e | u
          · simp [Except.map] at hok
          · rfl
        have hfc : SparseMap.find_value ixId { keys := r.storages.keys, values := r.storages.values.set i st2 } fam = some st2 := by
          rw [SparseMap.find_value]
          simp only [hfi]
          exact get?_set_self _ _ _ (by rw [hinv.wfTable.2]; exact hilt)
        show Registry.find_component _ fam id = some v
        rw [Registry.find_component, Registry.find_storage_]
        simp only [hfc]
        exact hfind2 hres
    case none =>
      have hnof := SparseSet.find_index_none hfi
      rcases hemp : r.storages.emplace ixId fam (SparseMap.mk0 Nat r.budget) with ⟨m, eres⟩
      match eres, hemp with
      | .error e, hemp =>
        obtain ⟨hmeq, _⟩ := SparseMap.emplace_err hemp
        have hr : r.assign_component fam id v = ({ r with storages := m }, .error e) := by
          rw [Registry.assign_component, if_pos halive]
          simp only [hfi, hemp]
        rw [hr, hmeq]
        have hrr : ({ r with storages := r.storages } : Registry) = r := rfl
        rw [hrr]
        refine ⟨hinv, rfl, rfl, rfl, rfl, ?_, ?_⟩
        · intro hc
          cases hc
        · intro hc
          simp at hc
      | .ok b, hemp =>
        match b, hemp with
        | false, hemp =>
          exact absurd (SparseMap.emplace_false hemp).2 (by simp [hnof])
        | true, hemp =>
          have hfreshf : ∀ w ∈ r.storages.keys.toL, ixId w ≠ ixId fam := by
            intro w hw hc
            have : w = fam := hc
            rw [this] at hw
            rw [← hinv.wfTable.1.has_iff fam, hnof] at hw
            cases hw
          obtain ⟨hwfm, hktoL, hvals, _, _, hselfm, _⟩ :=
            SparseMap.emplace_ok hinv.wfTable hfreshf hemp
          rcases hfi2 : m.keys.find_index ixId fam with _ | j
          · rw [SparseMap.find_value, hfi2] at hselfm
            cases hselfm
          · have hget2 : m.values.get? j = some (SparseMap.mk0 Nat r.budget) := by
              rw [SparseMap.find_value, hfi2] at hselfm
              exact hselfm
            have hjlt : j < m.values.length := get?_some_lt hget2
            rcases hasg : (SparseMap.mk0 Nat r.budget).assign ixE id v with ⟨st2, res⟩
            have hr : r.assign_component fam id v =
                ({ r with storages := { keys := m.keys, values := m.values.set j st2 } }, res.map (fun _ => true)) := by
              rw [Registry.assign_component, if_pos halive]
              simp only [hfi, hemp, hfi2, hget2, hasg]
            have hmk0toL : (SparseMap.mk0 Nat r.budget).keys.toL = [] := rfl
            obtain ⟨hwf2, hsub2, hfind2⟩ := storage_assign_cond r.liveIds
              (MapWF_mk0 Nat ixE r.budget)
              (by rw [hmk0toL]; intro k hk; cases hk) hidlive
              (by rw [hmk0toL]; intro w hw; cases hw) hasg
            rw [hr]
            refine ⟨?_, rfl, rfl, rfl, rfl, ?_, ?_⟩
            · apply hinv.with_storages
              · exact ⟨hwfm.1, by rw [List.length_set]; exact hwfm.2⟩
              · intro st' hst'
                rcases mem_of_mem_set hst' with h1 | h1
                · rw [h1]
                  exact ⟨hwf2, hsub2⟩
                · rw [hvals] at h1
                  rcases List.mem_append.mp h1 with h2 | h2
                  · exact hinv.wfStorage st' h2
                  · simp only [List.mem_singleton] at h2
                    rw [h2]
                    refine ⟨MapWF_mk0 Nat ixE r.budget, ?_⟩
                    rw [hmk0toL]
                    intro k hk
                    cases hk
            · intro hc
              cases hc
            · intro hok
              have hres : res = .ok () := by
                rcases res with e | u
                · simp [Except.map] at hok
                · rfl
              have hfc : SparseMap.find_value ixId { keys := m.keys, values := m.values.set j st2 } fam = some st2 := by
                rw [SparseMap.find_value]
                simp only [hfi2]
                exact get?_set_self _ _ _ hjlt
              show Registry.find_component _ fam id = some v
              rw [Registry.find_component, Registry.find_storage_]
              simp only [hfc]
              exact hfind2 hres

/-- `remove_component` preserves the registry invariant and touches only
the storages. -/
theorem Registry.removeComp_preserves {r : Registry} (hinv : RInv r)
    (fam id : Nat) :
    RInv (r.remove_component fam id).1 ∧
    (r.remove_component fam id).1.entity_ids = r.entity_ids ∧
    (r.remove_component fam id).1.free_entity_ids = r.free_entity_ids ∧
    (r.remove_component fam id).1.last_entity_id = r.last_entity_id ∧
    (r.remove_component fam id).1.budget = r.budget := by
  cases halive : r.is_entity_alive_impl_ id
  · have hr : r.remove_component fam id = (r, false) := by
      rw [Registry.remove_component, if_neg (by simp [halive])]
    rw [hr]
    exact ⟨hinv, rfl, rfl, rfl, rfl⟩
  · rcases hfi : r.storages.keys.find_index ixId fam with _ | i
    case none =>
      have hr : r.remove_component fam id = (r, false) := by
        rw [Registry.remove_component, if_pos halive]
        simp only [hfi]
      rw [hr]
      exact ⟨hinv, rfl, rfl, rfl, rfl⟩
    case some =>
      obtain ⟨hhasf, hieq⟩ := SparseSet.find_index_some hfi
      have hilt : i < r.storages.keys.size := by
        rw [SparseSet.has, decide_eq_true_iff] at hhasf
        rw [hieq]
        exact hhasf.2.1
      have hget : r.storages.values.get? i =
          some (r.storages.values.getD i (SparseMap.mk0 Nat 0)) :=
        get?_eq_getD _ _ _ (by rw [hinv.wfTable.2]; exact hilt)
      set st := r.storages.values.getD i (SparseMap.mk0 Nat 0) with hstdef
      have hstmem : st ∈ r.storages.values := List.get?_mem hget
      rcases hers : st.unordered_erase ixE id with ⟨st2, b⟩
      have hr : r.remove_component fam id =
          ({ r with storages := { keys := r.storages.keys, values := r.storages.values.set i st2 } }, b) := by
        rw [Registry.remove_component, if_pos halive]
        simp only [hfi, hget, hers]
      rw [hr]
      have hst2 : MapWF ixE st2 ∧ ∀ k ∈ st2.keys.toL, k ∈ r.liveIds := by
        cases hh : st.keys.has ixE id
        · have := @SparseMap.map_erase_not_has Nat _ ixE st id hh
          rw [hers] at this
          simp only [Prod.mk.injEq] at this
          rw [this.1]
          exact hinv.wfStorage st hstmem
        · obtain ⟨_, hwf1, _, hmem1, _, _⟩ :=
            SparseMap.map_erase_spec (hinv.wfStorage st hstmem).1 hh
          rw [hers] at hwf1 hmem1
          refine ⟨hwf1, ?_⟩
          intro k hk
          exact (hinv.wfStorage st hstmem).2 k ((hmem1 k).mp hk).1
      refine ⟨?_, rfl, rfl, rfl, rfl⟩
      apply hinv.with_storages
      · exact ⟨hinv.wfTable.1, by rw [List.length_set]; exact hinv.wfTable.2⟩
      · intro st' hst'
        rcases mem_of_mem_set hst' with h1 | h1
        · rw [h1]
          exact hst2
        · exact hinv.wfStorage st' h1

/-- `remove_all_components_impl_` preserves the registry invariant and
touches only the storages. -/
theorem Registry.removeAll_preserves {r : Registry} (hinv : RInv r) (id : Nat) :
    RInv (r.remove_all_components_impl_ id).1 ∧
    (r.remove_all_components_impl_ id).1.entity_ids = r.entity_ids ∧
    (r.remove_all_components_impl_ id).1.free_entity_ids = r.free_entity_ids ∧
    (r.remove_all_components_impl_ id).1.last_entity_id = r.last_entity_id ∧
    (r.remove_all_components_impl_ id).1.budget = r.budget := by
  cases halive : r.is_entity_alive_impl_ id
  · rw [(Registry.removeAll_spec hinv id).1 halive]
    exact ⟨hinv, rfl, rfl, rfl, rfl⟩
  · obtain ⟨hkeys, hvals, hent, hfree, hlast, hbud⟩ :=
      (Registry.removeAll_spec hinv id).2 halive
    have hr1 : (r.remove_all_components_impl_ id).1 =
        { r with storages := { keys := r.storages.keys, values := r.storages.values.map (fun st => (st.unordered_erase ixE id).1) } } := by
      rcases hp : (r.remove_all_components_impl_ id).1 with ⟨a, b, c, d, e⟩
      rw [hp] at hkeys hvals hent hfree hlast hbud
      simp only at hkeys hvals hent hfree hlast hbud
      rw [hent, hfree, hlast, hbud]
      rcases hd : d with ⟨dk, dv⟩
      rw [hd] at hkeys hvals
      simp only at hkeys hvals
      rw [hkeys, hvals]
    rw [hr1]
    refine ⟨?_, rfl, rfl, rfl, rfl⟩
    apply hinv.with_storages
    · exact ⟨hinv.wfTable.1, by rw [List.length_map]; exact hinv.wfTable.2⟩
    · intro st' hst'
      rcases List.mem_map.mp hst' with ⟨st0, hst0, hphi⟩
      obtain ⟨hwf0, hsub0⟩ := hinv.wfStorage st0 hst0
      cases hh : st0.keys.has ixE id
      · rw [← hphi, SparseMap.map_erase_not_has hh]
        exact ⟨hwf0, hsub0⟩
      · obtain ⟨_, hwf1, _, hmem1, _, _⟩ := SparseMap.map_erase_spec hwf0 hh
        rw [← hphi]
        refine ⟨hwf1, ?_⟩
        intro k hk
        exact hsub0 k ((hmem1 k).mp hk).1

/-- Every API call preserves the registry invariant. -/
theorem Registry.applyOp_preserves {r : Registry} (hinv : RInv r) (op : ROp) :
    RInv (r.applyOp op) := by
  cases op with
  | create => exact (Registry.create_analysis hinv).1
  | destroy id => exact Registry.destroy_preserves hinv id
  | assign fam id v => exact (Registry.assign_spec hinv fam id v).1
  | removeComp fam id => exact (Registry.removeComp_preserves hinv fam id).1
  | removeAll id => exact (Registry.removeAll_preserves hinv id).1

/-- The registry invariant holds along any API call sequence. -/
theorem Registry.foldl_inv {r : Registry} (hinv : RInv r) (ops : List ROp) :
    RInv (ops.foldl Registry.applyOp r) := by
  induction ops generalizing r with
  | nil => exact hinv
  | cons op rest ih => exact ih (Registry.applyOp_preserves hinv op)

/-- Every state produced by running API calls from a default-constructed
registry satisfies the invariant. -/
theorem Registry.run_inv (M : Nat) (ops : List ROp) :
    RInv (Registry.run M ops) :=
  Registry.foldl_inv (RInv_init M) ops

/-- Every reachable registry state satisfies the invariant. -/
theorem Reachable.inv {r : Registry} (h : Reachable r) : RInv r := by
  obtain ⟨M, ops, hr⟩ := h
  rw [hr]
  exact Registry.run_inv M ops

/-- C10: on a handle that is not alive, `assign_component` returns `false`
and leaves the registry entirely unchanged — no storage is lazily created,
no storage table entry added, no component modified. -/
theorem claim_C10 (r : Registry) (fam id v : Nat)
    (h : r.is_entity_alive_impl_ id = false) :
    r.assign_component fam id v = (r, .ok false) := by
  rw [Registry.assign_component, if_neg (by simp [h])]

/-- Witness for the claim about `assign_component` on a dead handle, at a
concrete reachable registry and a stale id. -/
theorem claim_C10_witness :
    Registry.assign_component (Registry.run 8 [ROp.create]) 1 5 7 =
      (Registry.run 8 [ROp.create], .ok false) :=
  claim_C10 (Registry.run 8 [ROp.create]) 1 5 7 (by decide)

/-- Counterexample to the claim that `destroy_entity` on a handle that is
not alive still removes every component entry at the handle's index: after
creating entity 1 and assigning it a component of family 1, destroying the
stale handle with the same index but generation 1 removes nothing — the
live entity's component entry at index 1 survives — and returns `false`. -/
theorem claim_C6_counterexample :
    (Registry.run 64 [ROp.create, ROp.assign 1 1 5]).is_entity_alive_impl_
      (entity_id_join 1 1) = false ∧
    ((Registry.run 64 [ROp.create, ROp.assign 1 1 5]).destroyEntity
      (entity_id_join 1 1)).2 = false ∧
    ((Registry.run 64 [ROp.create, ROp.assign 1 1 5]).destroyEntity
      (entity_id_join 1 1)).1.countAt 1 (entity_id_index (entity_id_join 1 1)) = 1 ∧
    ((Registry.run 64 [ROp.create, ROp.assign 1 1 5]).destroyEntity
      (entity_id_join 1 1)).1.find_component 1 1 = some 5 := by
  decide

/-- C6 (amended): `destroy_entity` on a handle that is not alive removes
no component entries at all — the removal pass is guarded on liveness —
leaves the registry unchanged, and returns `false`. -/
theorem claim_C6_theorem (r : Registry) (id : Nat)
    (h : r.is_entity_alive_impl_ id = false) :
    r.destroyEntity id = (r, false) := by
  have hra : r.remove_all_components_impl_ id = (r, 0) := by
    rw [Registry.remove_all_components_impl_, if_neg (by simp [h])]
  have h' : r.entity_ids.has ixE id = false := h
  rw [Registry.destroyEntity, hra]
  rw [Registry.eraseLive, SparseSet.erase_not_has h']

/-- Witness for the amended destroy-on-dead-handle claim at a concrete
reachable registry and stale handle. -/
theorem claim_C6_theorem_witness :
    Registry.destroyEntity (Registry.run 64 [ROp.create, ROp.assign 1 1 5])
      (entity_id_join 1 1) =
      (Registry.run 64 [ROp.create, ROp.assign 1 1 5], false) :=
  claim_C6_theorem (Registry.run 64 [ROp.create, ROp.assign 1 1 5])
    (entity_id_join 1 1) (by decide)

/-- Counterexample to the claim that a failed `create_entity` leaves the
registry in its pre-call state: with an allocation budget of 1 the very
first `create_entity` fails with capacity exhaustion, yet
`last_entity_id` has been bumped from 0 to 1, so the state differs from
the pre-call state. -/
theorem claim_C7_counterexample :
    ((Registry.init 1).createEntity).2 = .error .capacityExhausted ∧
    (Registry.init 1).last_entity_id = 0 ∧
    ((Registry.init 1).createEntity).1.last_entity_id = 1 ∧
    ((Registry.init 1).createEntity).1 ≠ Registry.init 1 := by
  decide

/-- C7 (amended): a failed `create_entity` consumes no free-list slot and
leaves the live set and storages unchanged; on index-space exhaustion the
whole state is unchanged; only when insertion of a fresh id fails has
`last_entity_id` already been incremented. -/
theorem claim_C7_theorem (r r' : Registry) (e : Err)
    (h : r.createEntity = (r', .error e)) :
    r'.free_entity_ids = r.free_entity_ids ∧ r'.liveIds = r.liveIds ∧
    r'.storages = r.storages ∧ r'.budget = r.budget ∧
    (r'.last_entity_id = r.last_entity_id ∨
      (r.free_entity_ids = [] ∧ r'.last_entity_id = r.last_entity_id + 1)) ∧
    (e = .indexSpaceExhausted → r' = r) := by
  obtain ⟨h1, h2, h3, h4, h5, h6⟩ := Registry.create_err h
  refine ⟨h1, ?_, h3, h4, h5, h6⟩
  rw [Registry.liveIds, Registry.liveIds, h2]

/-- Witness for the amended failed-create claim at the concrete
budget-1 registry. -/
theorem claim_C7_theorem_witness :
    ((Registry.init 1).createEntity).1.free_entity_ids =
      (Registry.init 1).free_entity_ids ∧
    ((Registry.init 1).createEntity).1.liveIds = (Registry.init 1).liveIds ∧
    ((Registry.init 1).createEntity).1.storages = (Registry.init 1).storages ∧
    ((Registry.init 1).createEntity).1.budget = (Registry.init 1).budget ∧
    (((Registry.init 1).createEntity).1.last_entity_id =
        (Registry.init 1).last_entity_id ∨
      ((Registry.init 1).free_entity_ids = [] ∧
        ((Registry.init 1).createEntity).1.last_entity_id =
          (Registry.init 1).last_entity_id + 1)) ∧
    (Err.capacityExhausted = Err.indexSpaceExhausted →
      ((Registry.init 1).createEntity).1 = Registry.init 1) :=
  claim_C7_theorem (Registry.init 1) ((Registry.init 1).createEntity).1
    Err.capacityExhausted (by decide)

/-- C1: a handle that is not a live id — its index is free or reused by a
different live entity — gets no component access: `find_component` is null
and `get_component` fails with component-not-found, for every component
family, on every reachable registry state. -/
theorem claim_C1 (r : Registry) (e : Nat) (h : Reachable r)
    (hstale : ∀ v ∈ r.liveIds, v ≠ e) (fam : Nat) :
    r.find_component fam e = none ∧
    r.get_component fam e = .error .componentNotFound := by
  have hinv := h.inv
  have hfind : r.find_component fam e = none := by
    rw [Registry.find_component]
    rcases hs : r.find_storage_ fam with _ | st
    · rfl
    · obtain ⟨hwfst, hsub⟩ := hinv.wfStorage st (Registry.find_storage_mem hs)
      apply SparseMap.find_value_not_has
      cases hh : st.keys.has ixE e
      · rfl
      · exact absurd rfl (hstale e (hsub e ((hwfst.1.has_iff e).mp hh)))
  refine ⟨hfind, ?_⟩
  rw [Registry.get_component, hfind]

/-- Witness for the stale-handle claim: entity 1 is live with a family-1
component, and the stale handle with index 1 and generation 1 sees
nothing. -/
theorem claim_C1_witness :
    (Registry.run 64 [ROp.create, ROp.assign 1 1 5]).find_component 1
      (entity_id_join 1 1) = none ∧
    (Registry.run 64 [ROp.create, ROp.assign 1 1 5]).get_component 1
      (entity_id_join 1 1) = .error .componentNotFound :=
  claim_C1 (Registry.run 64 [ROp.create, ROp.assign 1 1 5]) (entity_id_join 1 1)
    ⟨64, [ROp.create, ROp.assign 1 1 5], rfl⟩ (by decide) 1

/-- C3: `create_entity` on a reachable registry whose live-set container
can still grow (its `max_size` covers the index space): with a non-empty
free list it pops the most recently freed id `f` and returns the id with
index `index(f)` and generation `generation(f) + 1` wrapped modulo
`2^10`, appending it to the live set without touching `last_entity_id`;
with an empty free list and `last_entity_id < 2^22 - 1` it increments
`last_entity_id` and returns that index with generation zero; at
`last_entity_id = 2^22 - 1` it fails with index-space exhaustion,
unchanged. -/
theorem claim_C3 (r : Registry) (h : Reachable r)
    (hM : 2 ^ 22 ≤ r.entity_ids.maxSize) :
    (∀ f rest, r.free_entity_ids = f :: rest →
      (r.createEntity).2 =
        .ok (entity_id_join (entity_id_index f) (entity_id_version f + 1)) ∧
      entity_id_index
          (entity_id_join (entity_id_index f) (entity_id_version f + 1)) =
        entity_id_index f ∧
      entity_id_version
          (entity_id_join (entity_id_index f) (entity_id_version f + 1)) =
        (entity_id_version f + 1) % 2 ^ 10 ∧
      (r.createEntity).1.liveIds = r.liveIds ++
        [entity_id_join (entity_id_index f) (entity_id_version f + 1)] ∧
      (r.createEntity).1.free_entity_ids = rest ∧
      (r.createEntity).1.last_entity_id = r.last_entity_id) ∧
    (r.free_entity_ids = [] → r.last_entity_id < 2 ^ 22 - 1 →
      (r.createEntity).2 = .ok (r.last_entity_id + 1) ∧
      entity_id_index (r.last_entity_id + 1) = r.last_entity_id + 1 ∧
      entity_id_version (r.last_entity_id + 1) = 0 ∧
      (r.createEntity).1.liveIds = r.liveIds ++ [r.last_entity_id + 1] ∧
      (r.createEntity).1.free_entity_ids = [] ∧
      (r.createEntity).1.last_entity_id = r.last_entity_id + 1) ∧
    (r.free_entity_ids = [] → r.last_entity_id = 2 ^ 22 - 1 →
      r.createEntity = (r, .error .indexSpaceExhausted)) := by
  have hinv := h.inv
  have hmask : entity_id_index_mask = 2 ^ 22 - 1 := by
    norm_num [entity_id_index_mask, entity_id_index_bits, Nat.shiftLeft_eq]
  refine ⟨?_, ?_, ?_⟩
  · intro f rest hf
    obtain ⟨s, hce, _, htoL, _⟩ :=
      Registry.create_ok_free hinv hf (lt_of_lt_of_le (entity_id_index_lt f) hM)
    rw [hce]
    exact ⟨rfl, entity_id_index_join _ _ (entity_id_index_lt f),
      entity_id_version_join _ _ (entity_id_index_lt f), htoL, rfl, rfl⟩
  · intro hf hlast
    obtain ⟨s, hce, _, htoL, _⟩ :=
      Registry.create_ok_fresh hinv hf (by omega) (by omega)
    rw [hce]
    exact ⟨rfl, entity_id_index_self (by omega),
      entity_id_version_small (by omega), htoL, hf, rfl⟩
  · intro hf hlast
    exact Registry.create_exhausted hf (by omega)

/-- Witness for the `create_entity` claim: a fresh registry with a
full-index-space budget mints id 1 on its first create. -/
theorem claim_C3_witness :
    ((Registry.run (2 ^ 22) []).createEntity).2 = .ok 1 :=
  ((claim_C3 (Registry.run (2 ^ 22) []) ⟨2 ^ 22, [], rfl⟩ (by decide)).2.1 rfl
    (by decide)).1

/-- C9: on a reachable registry, two successful assignments of the same
component family to the same entity overwrite: `get_component` yields the
second value and the storage holds exactly one entry at the entity's
index. -/
theorem claim_C9 (r r1 r2 : Registry) (fam e a b : Nat) (h : Reachable r)
    (h1 : r.assign_component fam e a = (r1, .ok true))
    (h2 : r1.assign_component fam e b = (r2, .ok true)) :
    r2.get_component fam e = .ok b ∧
    r2.countAt fam (entity_id_index e) = 1 := by
  have hinv := h.inv
  have hr1 : (r.assign_component fam e a).1 = r1 := by rw [h1]
  have hinv1 : RInv r1 := hr1 ▸ (Registry.assign_spec hinv fam e a).1
  have s2 := Registry.assign_spec hinv1 fam e b
  have hr2 : (r1.assign_component fam e b).1 = r2 := by rw [h2]
  have hinv2 : RInv r2 := hr2 ▸ s2.1
  have hfind : r2.find_component fam e = some b := by
    have hok : (r1.assign_component fam e b).2 = .ok true := by rw [h2]
    have := s2.2.2.2.2.2.2 hok
    rw [hr2] at this
    exact this
  constructor
  · rw [Registry.get_component, hfind]
  · rcases hs : r2.find_storage_ fam with _ | st
    · rw [Registry.find_component, hs] at hfind; cases hfind
    · obtain ⟨hwfst, hsub⟩ := hinv2.wfStorage st (Registry.find_storage_mem hs)
      have hfv : st.find_value ixE e = some b := by
        rw [Registry.find_component, hs] at hfind; exact hfind
      have hhas : st.keys.has ixE e = true := by
        have hiso := hwfst.find_value_isSome e
        rw [hfv] at hiso
        exact hiso.symm
      have hmem : e ∈ st.keys.toL := (hwfst.1.has_iff e).mp hhas
      have hcount : st.keys.toL.countP
          (fun k => decide (entity_id_index k = entity_id_index e)) = 1 := by
        apply countP_eq_one_of_unique _ hwfst.1.nodup_toL e hmem (by simp)
        intro k hk hpk
        have hke : entity_id_index k = entity_id_index e := by
          simpa using hpk
        by_contra hne
        exact (hinv2.live_ix_ne (hsub k hk) (hsub e hmem) hne) hke
      rw [Registry.countAt, hs]
      exact hcount

/-- Witness for the assign-twice claim on a concrete run: assigning 10
then 20 to entity 1 leaves `get_component` at 20 and one entry at
index 1. -/
theorem claim_C9_witness :
    (((Registry.run 64 [ROp.create]).assign_component 1 1 10).1.assign_component
        1 1 20).1.get_component 1 1 = .ok 20 ∧
    (((Registry.run 64 [ROp.create]).assign_component 1 1 10).1.assign_component
        1 1 20).1.countAt 1 (entity_id_index 1) = 1 :=
  claim_C9 (Registry.run 64 [ROp.create])
    ((Registry.run 64 [ROp.create]).assign_component 1 1 10).1
    (((Registry.run 64 [ROp.create]).assign_component 1 1 10).1.assign_component
      1 1 20).1
    1 1 10 20 ⟨64, [ROp.create], rfl⟩ (by decide) (by decide)

/-- A single `create_entity` preserves the freshness invariant of a
destroyed handle: a failed create changes neither the live set nor the
free list; reuse of the handle's own index mints a different generation;
a fresh index exceeds the handle's index. -/
theorem freshInv_create (e : Nat) (s : Registry) (hq : FreshInv e s) :
    FreshInv e (s.createEntity).1 := by
  obtain ⟨hsinv, hslive, hsfree, hslast⟩ := hq
  obtain ⟨hinv1, hle, _, _, hcases⟩ := Registry.create_analysis hsinv
  rcases hcases with ⟨hl, hf2, _⟩ | ⟨f, rest, hff, _, hl, hfr, _⟩ |
    ⟨hff, _, hl, hfr, hlast2⟩
  · exact ⟨hinv1, by rw [hl]; exact hslive, by rw [hf2]; exact hsfree,
      le_trans hslast hle⟩
  · refine ⟨hinv1, ?_, ?_, le_trans hslast hle⟩
    · rw [hl]
      intro hc
      rcases List.mem_append.mp hc with h1 | h1
      · exact hslive h1
      · simp only [List.mem_singleton] at h1
        by_cases hixf : entity_id_index f = entity_id_index e
        · have hfe : f = e :=
            hsfree f (by rw [hff]; exact List.mem_cons_self f rest) hixf
          rw [hfe] at h1
          have hv := entity_id_version_join (entity_id_index e)
            (entity_id_version e + 1) (entity_id_index_lt e)
          rw [← h1] at hv
          have hvlt := entity_id_version_lt e
          omega
        · have hix := entity_id_index_join (entity_id_index f)
            (entity_id_version f + 1) (entity_id_index_lt f)
          rw [← h1] at hix
          exact hixf hix.symm
    · rw [hfr]
      intro g hg hge
      exact hsfree g (by rw [hff]; exact List.mem_cons_of_mem f hg) hge
  · refine ⟨hinv1, ?_, ?_, le_trans hslast hle⟩
    · rw [hl]
      intro hc
      rcases List.mem_append.mp hc with h1 | h1
      · exact hslive h1
      · simp only [List.mem_singleton] at h1
        have hm1 : s.last_entity_id + 1 ≤ entity_id_index_mask := by
          have hll := hinv1.lastLe
          rw [hlast2] at hll
          exact hll
        have hsel : entity_id_index (s.last_entity_id + 1) =
            s.last_entity_id + 1 := entity_id_index_self hm1
        rw [h1] at hslast
        rw [hsel] at hslast
        omega
    · rw [hfr]
      intro g hg
      exact absurd hg (List.not_mem_nil g)

/-- C4: after `destroy_entity(e)` returns `true`, the handle `e` is not
alive, and stays not alive after any number of subsequent `create_entity`
calls, even when a created entity reuses `e`'s index (the reused slot
carries a bumped generation). -/
theorem claim_C4 (r r' : Registry) (e : Nat) (h : Reachable r)
    (hd : r.destroyEntity e = (r', true)) :
    r'.is_entity_alive_impl_ e = false ∧
    ∀ n, (r'.createN n).is_entity_alive_impl_ e = false := by
  have hinv := h.inv
  have halive : r.is_entity_alive_impl_ e = true := by
    cases hc : r.is_entity_alive_impl_ e
    · exfalso
      have hr := (Registry.destroy_spec hinv e).1 hc
      rw [hr] at hd
      simpa using congrArg Prod.snd hd
    · rfl
  obtain ⟨_, hmem, hfree, hlast, _, _, _, _, _⟩ :=
    (Registry.destroy_spec hinv e).2 halive
  have hr' : (r.destroyEntity e).1 = r' := by rw [hd]
  rw [hr'] at hmem hfree hlast
  have hinv' : RInv r' := hr' ▸ Registry.destroy_preserves hinv e
  have heidx : entity_id_index e ≤ r.last_entity_id :=
    hinv.liveLast e ((Registry.alive_iff hinv e).mp halive)
  have hQ0 : FreshInv e r' := by
    refine ⟨hinv', ?_, ?_, ?_⟩
    · intro hcmem
      exact ((hmem e).mp hcmem).2 rfl
    · intro g hg hge
      rw [hfree] at hg
      rcases List.mem_cons.mp hg with h1 | h1
      · exact h1
      · exact absurd hge (hinv.freeLiveDisj g h1 e
          ((Registry.alive_iff hinv e).mp halive))
    · rw [hlast]
      exact heidx
  have hQn : ∀ (n : Nat) (s : Registry), FreshInv e s →
      FreshInv e (s.createN n) := by
    intro n
    induction n with
    | zero => intro s hq; exact hq
    | succ m ih => intro s hq; exact ih _ (freshInv_create e s hq)
  refine ⟨?_, ?_⟩
  · cases hc : r'.is_entity_alive_impl_ e
    · rfl
    · exact absurd ((Registry.alive_iff hQ0.1 e).mp hc) hQ0.2.1
  · intro n
    obtain ⟨hinvn, hnm, _, _⟩ := hQn n r' hQ0
    cases hc : (r'.createN n).is_entity_alive_impl_ e
    · rfl
    · exact absurd ((Registry.alive_iff hinvn e).mp hc) hnm

/-- Witness for the entity-freshness claim: destroy entity 1, create
three more entities; the old handle stays dead. -/
theorem claim_C4_witness :
    (((Registry.run 8 [ROp.create]).destroyEntity 1).1.createN
        3).is_entity_alive_impl_ 1 = false :=
  (claim_C4 (Registry.run 8 [ROp.create])
    ((Registry.run 8 [ROp.create]).destroyEntity 1).1 1
    ⟨8, [ROp.create], rfl⟩ (by decide)).2 3

/-- The keep-if fold of the joined iteration is a filter. -/
theorem foldr_keep_eq_filter (p : Nat → Bool) (l : List Nat) :
    l.foldr (fun id acc => if p id then id :: acc else acc) [] = l.filter p := by
  induction l with
  | nil => rfl
  | cons a t ih =>
    rw [List.foldr_cons, ih, List.filter_cons]

/-- `exists_component` holds exactly when the entity is alive and the
family's storage exists and contains the entity. -/
theorem Registry.exists_component_iff (r : Registry) (fam e : Nat) :
    r.exists_component fam e = true ↔
      (r.is_entity_alive_impl_ e = true ∧
        ∃ st, r.find_storage_ fam = some st ∧ st.keys.has ixE e = true) := by
  rw [Registry.exists_component, Bool.and_eq_true]
  constructor
  · rintro ⟨ha, hm⟩
    refine ⟨ha, ?_⟩
    rcases hs : r.find_storage_ fam with _ | st
    · rw [hs] at hm
      exact Bool.noConfusion hm
    · rw [hs] at hm
      exact ⟨st, rfl, hm⟩
  · rintro ⟨ha, st, hs, hh⟩
    refine ⟨ha, ?_⟩
    rw [hs]
    exact hh

/-- The tail probe of the joined iteration succeeds exactly when every
tail family's storage exists and contains the entity. -/
theorem probeTails_iff (r : Registry) (hinv : RInv r) (fs : List Nat) (e : Nat) :
    probeTails (fs.map r.find_storage_) e = true ↔
      ∀ f ∈ fs, ∃ st, r.find_storage_ f = some st ∧
        st.keys.has ixE e = true := by
  rw [probeTails, List.all_eq_true]
  constructor
  · intro hall f hf
    have ht := hall (r.find_storage_ f) (List.mem_map_of_mem _ hf)
    rcases hs : r.find_storage_ f with _ | st
    · rw [hs] at ht
      exact Bool.noConfusion ht
    · rw [hs] at ht
      refine ⟨st, rfl, ?_⟩
      have ht' : (st.find_value ixE e).isSome = true := ht
      have hwfst := (hinv.wfStorage st (Registry.find_storage_mem hs)).1
      rw [← hwfst.find_value_isSome e]
      exact ht'
  · intro hall t htm
    rcases List.mem_map.mp htm with ⟨f, hf, hft⟩
    obtain ⟨st, hs, hh⟩ := hall f hf
    rw [← hft, hs]
    show (st.find_value ixE e).isSome = true
    have hwfst := (hinv.wfStorage st (Registry.find_storage_mem hs)).1
    rw [hwfst.find_value_isSome e]
    exact hh

/-- C2: on a reachable registry, joined iteration over families
`f0 :: fs` visits nothing when any family lacks a storage; otherwise it
walks the driving storage's dense order filtered by the tail probe,
visits each entity at most once, and visits exactly the entities that are
alive and hold every family's component. -/
theorem claim_C2 (r : Registry) (h : Reachable r) (f0 : Nat) (fs : List Nat) :
    ((fs.map r.find_storage_).any Option.isNone = true →
      r.for_joined_components f0 fs = []) ∧
    (r.find_storage_ f0 = none → r.for_joined_components f0 fs = []) ∧
    (r.for_joined_components f0 fs).Nodup ∧
    (∀ s0, r.find_storage_ f0 = some s0 →
      (fs.map r.find_storage_).any Option.isNone = false →
      r.for_joined_components f0 fs =
        s0.keys.toL.filter (probeTails (fs.map r.find_storage_))) ∧
    (∀ e, e ∈ r.for_joined_components f0 fs ↔
      (r.is_entity_alive_impl_ e = true ∧
        ∀ f ∈ f0 :: fs, r.exists_component f e = true)) := by
  have hinv := h.inv
  refine ⟨?_, ?_, ?_, ?_, ?_⟩
  · intro hn
    simp [Registry.for_joined_components, hn]
  · intro hn0
    cases hn : (fs.map r.find_storage_).any Option.isNone
    · simp [Registry.for_joined_components, hn, hn0]
    · simp [Registry.for_joined_components, hn]
  · cases hn : (fs.map r.find_storage_).any Option.isNone
    · rcases hs0 : r.find_storage_ f0 with _ | s0
      · have hj : r.for_joined_components f0 fs = [] := by
          simp [Registry.for_joined_components, hn, hs0]
        rw [hj]
        exact List.nodup_nil
      · have hj : r.for_joined_components f0 fs =
            s0.keys.toL.filter (probeTails (fs.map r.find_storage_)) := by
          simp only [Registry.for_joined_components]
          rw [if_neg (by simp [hn])]
          simp only [hs0]
          exact foldr_keep_eq_filter _ _
        rw [hj]
        exact ((hinv.wfStorage s0
          (Registry.find_storage_mem hs0)).1.1.nodup_toL).filter _
    · have hj : r.for_joined_components f0 fs = [] := by
        simp [Registry.for_joined_components, hn]
      rw [hj]
      exact List.nodup_nil
  · intro s0 hs0 hn
    simp only [Registry.for_joined_components]
    rw [if_neg (by simp [hn])]
    simp only [hs0]
    exact foldr_keep_eq_filter _ _
  · intro e
    cases hn : (fs.map r.find_storage_).any Option.isNone
    case true =>
      have hj : r.for_joined_components f0 fs = [] := by
        simp [Registry.for_joined_components, hn]
      constructor
      · intro hc
        rw [hj] at hc
        exact absurd hc (List.not_mem_nil e)
      · rintro ⟨ha, hall⟩
        exfalso
        rcases List.any_eq_true.mp hn with ⟨t, htm, htn⟩
        rcases List.mem_map.mp htm with ⟨f, hf, hft⟩
        have hex := hall f (List.mem_cons_of_mem f0 hf)
        obtain ⟨_, st, hs, _⟩ := (Registry.exists_component_iff r f e).mp hex
        rw [← hft, hs] at htn
        simp at htn
    case false =>
      rcases hs0 : r.find_storage_ f0 with _ | s0
      case none =>
        have hj : r.for_joined_components f0 fs = [] := by
          simp [Registry.for_joined_components, hn, hs0]
        constructor
        · intro hc
          rw [hj] at hc
          exact absurd hc (List.not_mem_nil e)
        · rintro ⟨ha, hall⟩
          exfalso
          have hex := hall f0 (List.mem_cons_self f0 fs)
          obtain ⟨_, st, hs, _⟩ := (Registry.exists_component_iff r f0 e).mp hex
          rw [hs0] at hs
          exact Option.noConfusion hs
      case some =>
        have hj : r.for_joined_components f0 fs =
            s0.keys.toL.filter (probeTails (fs.map r.find_storage_)) := by
          simp only [Registry.for_joined_components]
          rw [if_neg (by simp [hn])]
          simp only [hs0]
          exact foldr_keep_eq_filter _ _
        rw [hj, List.mem_filter]
        obtain ⟨hwfs0, hsub0⟩ := hinv.wfStorage s0 (Registry.find_storage_mem hs0)
        constructor
        · rintro ⟨hmem, hprobe⟩
          have halive : r.is_entity_alive_impl_ e = true :=
            (Registry.alive_iff hinv e).mpr (hsub0 e hmem)
          refine ⟨halive, ?_⟩
          intro f hf
          rcases List.mem_cons.mp hf with h1 | h1
          · rw [h1]
            exact (Registry.exists_component_iff r f0 e).mpr
              ⟨halive, s0, hs0, (hwfs0.1.has_iff e).mpr hmem⟩
          · obtain ⟨st, hs, hh⟩ := (probeTails_iff r hinv fs e).mp hprobe f h1
            exact (Registry.exists_component_iff r f e).mpr ⟨halive, st, hs, hh⟩
        · rintro ⟨ha, hall⟩
          have hex0 := hall f0 (List.mem_cons_self f0 fs)
          obtain ⟨_, st0, hs0', hh0⟩ :=
            (Registry.exists_component_iff r f0 e).mp hex0
          rw [hs0] at hs0'
          injection hs0' with hst0
          rw [← hst0] at hh0
          refine ⟨(hwfs0.1.has_iff e).mp hh0, ?_⟩
          apply (probeTails_iff r hinv fs e).mpr
          intro f hf
          obtain ⟨_, st, hs, hh⟩ := (Registry.exists_component_iff r f e).mp
            (hall f (List.mem_cons_of_mem f0 hf))
          exact ⟨st, hs, hh⟩

/-- Witness for the joined-iteration claim on a concrete run: entity 1
holds components of families 1 and 2, and membership in the joined visit
over those families is exactly the alive-and-has-all condition. -/
theorem claim_C2_witness :
    1 ∈ (Registry.run 64
        [ROp.create, ROp.assign 1 1 5, ROp.assign 2 1 7]).for_joined_components
        1 [2] ↔
      ((Registry.run 64
          [ROp.create, ROp.assign 1 1 5, ROp.assign 2 1 7]).is_entity_alive_impl_
          1 = true ∧
        ∀ f ∈ [1, 2], (Registry.run 64
          [ROp.create, ROp.assign 1 1 5, ROp.assign 2 1 7]).exists_component f
          1 = true) :=
  (claim_C2 (Registry.run 64 [ROp.create, ROp.assign 1 1 5, ROp.assign 2 1 7])
    ⟨64, [ROp.create, ROp.assign 1 1 5, ROp.assign 2 1 7], rfl⟩ 1 [2]).2.2.2.2 1
